import Mathlib

/-!
Verification of the libnote document-parsing core.

This file gives a shallow embedding, in Lean 4, of the parts of the
`martial-plains/libnote` Rust crate that the specification's claims talk
about: the line-scanning block detector (`src/parser/detector.rs`), the
block manager (`src/parser/manager.rs`), the block-level Markdown and Org
parsers (`src/parser/parsers/markdown.rs`, `src/parser/parsers/org.rs`),
the whole-document Markdown and Org format parsers
(`src/formats/markdown.rs`, `src/formats/org.rs`) and the section-tree
builder (`src/document/tree.rs`).

Rust strings are modelled as `List Char` (the `Str` abbreviation); Rust
`usize`/`u64` indices and `u8` levels are modelled as `Nat` (no modular
arithmetic is involved at the points the claims touch: the code either
bounds the values or only compares them).  Functions whose Rust originals
use unbounded loops are written with an explicit fuel argument so that
they stay computable by the kernel; the top-level wrappers supply a fuel
that is provably sufficient.
-/

namespace Libnote

/-- Characters of a Rust `String`/`&str`, in order. -/
abbrev Str := List Char

/-- Convert a Lean string literal to its character list. -/
def toChars (s : String) : Str := s.data

/-- Rust `char::is_whitespace` (Unicode `White_Space` property). -/
def rustIsWhitespace (c : Char) : Bool :=
  c = ' ' || c = '\t' || c = '\n' || c = '\x0b' || c = '\x0c' || c = '\r' ||
  c = '\u0085' || c = ' ' || c = ' ' ||
  (0x2000 ≤ c.toNat && c.toNat ≤ 0x200A) ||
  c = ' ' || c = ' ' || c = ' ' || c = ' ' || c = '　'

/-- Rust `str::trim_start`. -/
def trimStart (s : Str) : Str := s.dropWhile rustIsWhitespace

/-- Rust `str::trim_end`. -/
def trimEnd (s : Str) : Str := (s.reverse.dropWhile rustIsWhitespace).reverse

/-- Rust `str::trim`. -/
def rustTrim (s : Str) : Str := trimEnd (trimStart s)

/-- Rust `str::strip_prefix`: the tail after `p` when `p` is a prefix. -/
def stripPrefix (p s : Str) : Option Str :=
  if p.isPrefixOf s then some (s.drop p.length) else none

/-- Rust `str::contains(pattern)` for a string pattern: `pat` occurs as a
contiguous substring of `s`. -/
def containsSub (pat : Str) : Str → Bool
  | [] => pat.isEmpty
  | c :: rest => pat.isPrefixOf (c :: rest) || containsSub pat rest

/-- Rust `line.matches("$$").count()`: number of non-overlapping
occurrences of `$$`, scanning left to right. -/
def countDD : Str → Nat
  | '$' :: '$' :: rest => countDD rest + 1
  | _ :: rest => countDD rest
  | [] => 0

/-- Strip one trailing carriage return, as `str::lines` does for lines
terminated by `\r\n`. -/
def stripCREnd (l : Str) : Str :=
  if l.getLast? = some '\r' then l.dropLast else l

/-- Accumulator loop for `rustLines`; `acc` holds the current line
reversed. -/
def rustLinesGo : Str → Str → List Str
  | acc, [] => if acc.isEmpty then [] else [acc.reverse]
  | acc, c :: rest =>
    if c = '\n' then stripCREnd acc.reverse :: rustLinesGo [] rest
    else rustLinesGo (c :: acc) rest

/-- Rust `str::lines`: split at `\n`, dropping a `\r` that precedes a
`\n`; the final line ending is optional and a trailing empty line is not
produced. -/
def rustLines (s : Str) : List Str := rustLinesGo [] s

/-- Split at every occurrence of the character `sep`, keeping empty
pieces, as Rust `str::split(sep)` does. -/
def splitCharGo (sep : Char) : Str → Str → List Str
  | acc, [] => [acc.reverse]
  | acc, c :: rest =>
    if c = sep then acc.reverse :: splitCharGo sep [] rest
    else splitCharGo sep (c :: acc) rest

/-- Rust `str::split(sep)` for a character separator. -/
def splitChar (sep : Char) (s : Str) : List Str := splitCharGo sep [] s

/-- Accumulator loop for `splitWhitespace`. -/
def splitWhitespaceGo : Str → Str → List Str
  | acc, [] => if acc.isEmpty then [] else [acc.reverse]
  | acc, c :: rest =>
    if rustIsWhitespace c then
      if acc.isEmpty then splitWhitespaceGo [] rest
      else acc.reverse :: splitWhitespaceGo [] rest
    else splitWhitespaceGo (c :: acc) rest

/-- Rust `str::split_whitespace`: maximal non-whitespace runs. -/
def splitWhitespace (s : Str) : List Str := splitWhitespaceGo [] s

/-- Rust `char::to_uppercase` restricted to its ASCII behaviour (the
inputs reaching it in the detector are ASCII block-type tags). -/
def rustToUpper (c : Char) : Char := c.toUpper

/-- Rust `char::is_ascii_digit`. -/
def rustIsAsciiDigit (c : Char) : Bool := '0' ≤ c && c ≤ '9'

/-- Rust `char::is_uppercase` restricted to ASCII (the claims relying on
it only ever apply it to ASCII title/keyword characters). -/
def rustIsUppercase (c : Char) : Bool := 'A' ≤ c && c ≤ 'Z'

/-- Decimal rendering of a `usize`, as Rust `Display` produces it. -/
def natToStr (n : Nat) : Str := Nat.toDigits 10 n

/-! ## The AST model (`src/models.rs`) -/

/-- `ListStyle::Ordered` numbering kind (`src/models.rs`). -/
inductive NumberingType where
  | Decimal
  | LowerAlpha
  | UpperAlpha
  | LowerRoman
  | UpperRoman
deriving DecidableEq, Repr

/-- `ListStyle::Ordered` numbering style (`src/models.rs`). -/
inductive NumberingStyle where
  | Dot
  | Paren
  | ZeroPadded
deriving DecidableEq, Repr

/-- Numbering descriptor for ordered lists (`src/models.rs`). -/
structure Numbering where
  kind : NumberingType
  style : NumberingStyle
deriving DecidableEq, Repr

/-- List style; the unordered bullet byte is modelled as the ASCII
character it holds (`src/models.rs`). -/
inductive ListStyle where
  | Unordered (bullet : Char)
  | Ordered (numbering : Numbering)
deriving DecidableEq, Repr

/-- Table cell alignment (`src/models.rs`); Rust `Alignment::default()`
is `Left`. -/
inductive Alignment where
  | Left
  | Center
  | Right
deriving DecidableEq, Repr

/-- Attachment media kind (`src/models.rs`). -/
inductive AttachmentType where
  | Image
  | Audio
  | Video
  | Document
  | Other (mime : Str)
deriving DecidableEq, Repr

/-- An attachment (`src/models.rs`). -/
structure Attachment where
  name : Str
  src : Str
  kind : AttachmentType
deriving DecidableEq, Repr

/-- A key-value attribute pair (`src/models.rs`). -/
structure Attribute where
  key : Str
  value : Str
deriving DecidableEq, Repr

/-- Span-level inline content (`Inline` in `src/models.rs`). -/
inductive Inline where
  | Text (text : Str)
  | Bold (content : List Inline)
  | Italic (content : List Inline)
  | Strikethrough (content : List Inline)
  | Link (text : List Inline) (target : Str)
  | Image (altText : Option Str) (src : Str)
  | Code (code : Str)
  | Math (content : Str)
  | LineBreak
  | Superscript (content : List Inline)
  | Subscript (content : List Inline)
  | FootnoteReference (label : Str)

mutual

/-- Container blocks (`ContainerBlock` in `src/models.rs`). -/
inductive ContainerBlock where
  | Quote (blocks : List Block)
  | List (style : ListStyle) (items : List (List Block))
  | Table (headers : List (List Inline)) (rows : List (List (List Inline)))
      (alignments : Option (List Alignment)) (caption : Option (List Inline))
  | Div (classes : List Str) (attributes : List Attribute) (children : List Block)

/-- Leaf blocks (`LeafBlock` in `src/models.rs`). -/
inductive LeafBlock where
  | Paragraph (content : List Inline)
  | Heading (level : Nat) (content : List Inline)
  | Image (altText : Option Str) (src : Str)
  | CodeBlock (language : Option Str) (content : Str)
  | MathBlock (content : Str)
  | HorizontalRule
  | Attachment (attachment : Attachment)

/-- A definition list item (`src/models.rs`). -/
inductive DefinitionItem where
  | mk (term : List Inline) (definition : List Block)

/-- Block-level content (`Block` in `src/models.rs`). -/
inductive Block where
  | Container (container : ContainerBlock)
  | Leaf (leaf : LeafBlock)
  | DefinitionList (items : List DefinitionItem)
  | FootnoteDefinition (label : Str) (content : List Block)

end

/-- `Block::paragraph` constructor helper (`src/models.rs`). -/
def Block.paragraph (content : List Inline) : Block :=
  .Leaf (.Paragraph content)

/-- `Block::heading` constructor helper (`src/models.rs`). -/
def Block.heading (level : Nat) (content : List Inline) : Block :=
  .Leaf (.Heading level content)

/-- `Block::image` constructor helper (`src/models.rs`). -/
def Block.image (altText : Option Str) (src : Str) : Block :=
  .Leaf (.Image altText src)

/-- `Block::code_block` constructor helper (`src/models.rs`). -/
def Block.codeBlock (language : Option Str) (content : Str) : Block :=
  .Leaf (.CodeBlock language content)

/-- `Block::math_block` constructor helper (`src/models.rs`). -/
def Block.mathBlock (content : Str) : Block :=
  .Leaf (.MathBlock content)

/-- `Block::horizontal_rule` constructor helper (`src/models.rs`). -/
def Block.horizontalRule : Block :=
  .Leaf .HorizontalRule

/-- `Block::quote` constructor helper (`src/models.rs`). -/
def Block.quoteOf (blocks : List Block) : Block :=
  .Container (.Quote blocks)

/-- `Block::list` constructor helper (`src/models.rs`). -/
def Block.listOf (style : ListStyle) (items : List (List Block)) : Block :=
  .Container (.List style items)

/-- `Block::table` constructor helper (`src/models.rs`). -/
def Block.tableOf (headers : List (List Inline)) (rows : List (List (List Inline)))
    (alignments : Option (List Alignment)) (caption : Option (List Inline)) : Block :=
  .Container (.Table headers rows alignments caption)

/-! ## Block detector (`src/parser/detector.rs`) -/

/-- Syntax type identifier for blocks (`SyntaxKind` in
`src/parser/mod.rs`). -/
inductive SyntaxKind where
  | Markdown
  | Org
  | LaTeX
  | Code
  | Custom
deriving DecidableEq, Repr

/-- Rust `{:?}` (derived `Debug`) output for `SyntaxKind`. -/
def SyntaxKind.debugStr : SyntaxKind → Str
  | .Markdown => toChars "Markdown"
  | .Org => toChars "Org"
  | .LaTeX => toChars "LaTeX"
  | .Code => toChars "Code"
  | .Custom => toChars "Custom"

/-- A raw block detected by line scanning (`SyntaxBlock` in
`src/parser/detector.rs`). -/
structure SyntaxBlock where
  syntax_kind : SyntaxKind
  language : Option Str
  content : Str
  start_line : Nat
  end_line : Nat
deriving DecidableEq, Repr

/-- Join the inclusive line slice `lines[a..=b]` with `\n`, as the
detector's `lines[start..=end].join("\n")` does. -/
def sliceJoin (lines : List Str) (a b : Nat) : Str :=
  (List.intersperse (toChars "\n") ((lines.drop a).take (b - a + 1))).flatten

/-- The Rust line at index `i` (`lines[i]`; callers establish the
bound, so out-of-range defaults to the empty line). -/
def lineAt (lines : List Str) (i : Nat) : Str := lines.getD i []

/-- Scan of `BlockDetector::scan_org_block`: find the matching
`#+END_<TYPE>` line and produce an Org block spanning both markers. -/
def scanOrgBlock (lines : List Str) (start : Nat) : Option (SyntaxBlock × Nat) :=
  let firstLine := lineAt lines start
  let trimmed := trimStart firstLine
  if ¬ (toChars "#+BEGIN_").isPrefixOf trimmed then none
  else
    match stripPrefix (toChars "#+BEGIN_") trimmed with
    | none => none
    | some afterBegin =>
      match (splitWhitespace afterBegin).head? with
      | none => none
      | some w =>
        let blockType := w.map rustToUpper
        let endMarker := toChars "#+END_" ++ blockType
        match (lines.drop (start + 1)).findIdx?
            (fun l => endMarker.isPrefixOf (trimStart l)) with
        | none => none
        | some i =>
          some ({ syntax_kind := .Org, language := none,
                  content := sliceJoin lines start (start + i + 1),
                  start_line := start, end_line := start + i + 1 },
                start + i + 2)

/-- Scan of `BlockDetector::scan_markdown_code_block`: capture the
optional language token and find the closing fence. -/
def scanMarkdownCodeBlock (lines : List Str) (start : Nat) :
    Option (SyntaxBlock × Nat) :=
  let firstLine := rustTrim (lineAt lines start)
  let language :=
    (stripPrefix (toChars "```") firstLine).bind (fun s =>
      let trimmed := rustTrim s
      if trimmed.isEmpty then none else (splitWhitespace trimmed).head?)
  match (lines.drop (start + 1)).findIdx?
      (fun l => (toChars "```").isPrefixOf (rustTrim l)) with
  | none => none
  | some i =>
    some ({ syntax_kind := .Code, language := language,
            content := sliceJoin lines start (start + i + 1),
            start_line := start, end_line := start + i + 1 },
          start + i + 2)

/-- Scan of `BlockDetector::scan_latex_block`: a line with two `$$`
occurrences is a one-line block, otherwise scan forward for the next
line containing `$$`. -/
def scanLatexBlock (lines : List Str) (start : Nat) :
    Option (SyntaxBlock × Nat) :=
  let firstLine := lineAt lines start
  if ¬ containsSub (toChars "$$") firstLine then none
  else if 2 ≤ countDD firstLine then
    some ({ syntax_kind := .LaTeX, language := none, content := firstLine,
            start_line := start, end_line := start }, start + 1)
  else
    match (lines.drop (start + 1)).findIdx?
        (fun l => containsSub (toChars "$$") l) with
    | none => none
    | some i =>
      some ({ syntax_kind := .LaTeX, language := none,
              content := sliceJoin lines start (start + i + 1),
              start_line := start, end_line := start + i + 1 },
            start + i + 2)

/-- A line at which `BlockDetector::scan_markdown_block` stops extending
the current Markdown run: blank, or opening another dialect's marker. -/
def mdBreakLine (l : Str) : Bool :=
  let trimmed := rustTrim l
  trimmed.isEmpty || (toChars "#+BEGIN_").isPrefixOf trimmed ||
    (toChars "```").isPrefixOf trimmed || containsSub (toChars "$$") trimmed

/-- Scan of `BlockDetector::scan_markdown_block`: accumulate lines until
a blank line or another dialect's marker (the breaking line excluded). -/
def scanMarkdownBlock (lines : List Str) (start : Nat) :
    Option (SyntaxBlock × Nat) :=
  let endIdx :=
    match (lines.drop (start + 1)).findIdx? mdBreakLine with
    | some i => start + i
    | none => lines.length - 1
  if start ≤ endIdx then
    some ({ syntax_kind := .Markdown, language := none,
            content := sliceJoin lines start endIdx,
            start_line := start, end_line := endIdx },
          endIdx + 1)
  else none

/-- Dispatch of `BlockDetector::scan_block` on the current line. -/
def scanBlock (lines : List Str) (start : Nat) : Option (SyntaxBlock × Nat) :=
  let line := lineAt lines start
  if (toChars "#+BEGIN_").isPrefixOf (trimStart line) then
    scanOrgBlock lines start
  else if (toChars "```").isPrefixOf (rustTrim line) then
    scanMarkdownCodeBlock lines start
  else if containsSub (toChars "$$") line then
    scanLatexBlock lines start
  else if ¬ (rustTrim line).isEmpty then
    scanMarkdownBlock lines start
  else
    none

/-- The detector's main loop (`BlockDetector::detect`), with explicit
fuel; each iteration advances `current_pos` by at least one, so
`lines.length` iterations always suffice. -/
def detectLoop (lines : List Str) : Nat → Nat → List SyntaxBlock
  | _, 0 => []
  | pos, fuel + 1 =>
    if pos < lines.length then
      match scanBlock lines pos with
      | some (block, newPos) => block :: detectLoop lines newPos fuel
      | none => detectLoop lines (pos + 1) fuel
    else []

/-- `BlockDetector::detect`: segment a document into syntax-tagged raw
blocks. -/
def detect (text : Str) : List SyntaxBlock :=
  let lines := rustLines text
  detectLoop lines 0 (lines.length + 1)

/-! ## Detector lemmas -/

lemma findIdxQ_lt_length {α : Type} {p : α → Bool} {l : List α} {i : Nat}
    (h : l.findIdx? p = some i) : i < l.length :=
  (List.findIdx?_eq_some_iff_findIdx_eq.mp h).1

lemma rustTrim_eq_nil_iff {l : Str} :
    rustTrim l = [] ↔ ∀ c ∈ l, rustIsWhitespace c := by
  constructor
  · intro h c hc
    have h' : (trimStart l).reverse.dropWhile rustIsWhitespace = [] := by
      simpa [rustTrim, trimEnd] using congrArg List.reverse h
    have hall : ∀ c ∈ (trimStart l).reverse, rustIsWhitespace c :=
      List.dropWhile_eq_nil_iff.mp h'
    rcases List.mem_append.mp
        ((List.takeWhile_append_dropWhile rustIsWhitespace l).symm ▸ hc) with hl | hr
    · exact List.mem_takeWhile_imp hl
    · exact hall c (List.mem_reverse.mpr hr)
  · intro hall
    have h1 : trimStart l = [] := List.dropWhile_eq_nil_iff.mpr hall
    rw [rustTrim, h1]
    rfl

lemma rustTrim_ne_nil_of_mem {l : Str} {c : Char} (hc : c ∈ l)
    (hw : rustIsWhitespace c = false) : rustTrim l ≠ [] := by
  intro h
  have := rustTrim_eq_nil_iff.mp h c hc
  simp [this] at hw

lemma mem_of_containsSub_cons {a : Char} {p l : Str}
    (h : containsSub (a :: p) l = true) : a ∈ l := by
  induction l with
  | nil => simp [containsSub] at h
  | cons c rest ih =>
    rw [containsSub] at h
    rcases Bool.or_eq_true_iff.mp h with h1 | h2
    · have hpre : (a :: p) <+: (c :: rest) := List.isPrefixOf_iff_prefix.mp h1
      have : a = c := (List.cons_prefix_cons.mp hpre).1
      simp [this]
    · exact List.mem_cons_of_mem _ (ih h2)

lemma rustTrim_ne_nil_of_trimStart_prefix {l p : Str} {c : Char}
    (h : (c :: p).isPrefixOf (trimStart l) = true)
    (hw : rustIsWhitespace c = false) : rustTrim l ≠ [] := by
  have hpre : (c :: p) <+: trimStart l := List.isPrefixOf_iff_prefix.mp h
  have hmem : c ∈ trimStart l := hpre.mem (List.mem_cons_self c p)
  have hsuf : trimStart l <:+ l := List.dropWhile_suffix _
  exact rustTrim_ne_nil_of_mem (hsuf.mem hmem) hw

lemma rustTrim_ne_nil_of_rustTrim_prefix {l p : Str} {c : Char}
    (h : (c :: p).isPrefixOf (rustTrim l) = true) : rustTrim l ≠ [] := by
  intro hnil
  have hpre : (c :: p) <+: rustTrim l := List.isPrefixOf_iff_prefix.mp h
  rw [hnil] at hpre
  exact absurd (List.prefix_nil.mp hpre) (by simp)

/-- Shape facts shared by all four scan functions: the block starts at
the scan position, the returned next position is one past the inclusive
end line, and the end line is inside the input. -/
lemma scanOrgBlock_spec {lines : List Str} {start : Nat} {b : SyntaxBlock}
    {nxt : Nat} (h : scanOrgBlock lines start = some (b, nxt)) :
    b.start_line = start ∧ nxt = b.end_line + 1 ∧ start ≤ b.end_line ∧
      b.end_line < lines.length := by
  simp only [scanOrgBlock] at h
  split at h
  · exact absurd h (by simp)
  · split at h
    · exact absurd h (by simp)
    · split at h
      · exact absurd h (by simp)
      · split at h
        · exact absurd h (by simp)
        · rename_i i hfind
          have hi : i < (lines.drop (start + 1)).length := findIdxQ_lt_length hfind
          rw [List.length_drop] at hi
          simp only [Option.some.injEq, Prod.mk.injEq] at h
          obtain ⟨hb, hn⟩ := h
          subst hb
          subst hn
          refine ⟨rfl, rfl, ?_, ?_⟩
          · show start ≤ start + i + 1
            omega
          · show start + i + 1 < lines.length
            omega

lemma scanMarkdownCodeBlock_spec {lines : List Str} {start : Nat}
    {b : SyntaxBlock} {nxt : Nat}
    (h : scanMarkdownCodeBlock lines start = some (b, nxt)) :
    b.start_line = start ∧ nxt = b.end_line + 1 ∧ start ≤ b.end_line ∧
      b.end_line < lines.length := by
  simp only [scanMarkdownCodeBlock] at h
  split at h
  · exact absurd h (by simp)
  · rename_i i hfind
    have hi : i < (lines.drop (start + 1)).length := findIdxQ_lt_length hfind
    rw [List.length_drop] at hi
    simp only [Option.some.injEq, Prod.mk.injEq] at h
    obtain ⟨hb, hn⟩ := h
    subst hb
    subst hn
    refine ⟨rfl, rfl, ?_, ?_⟩
    · show start ≤ start + i + 1
      omega
    · show start + i + 1 < lines.length
      omega

lemma scanLatexBlock_spec {lines : List Str} {start : Nat} {b : SyntaxBlock}
    {nxt : Nat} (hs : start < lines.length)
    (h : scanLatexBlock lines start = some (b, nxt)) :
    b.start_line = start ∧ nxt = b.end_line + 1 ∧ start ≤ b.end_line ∧
      b.end_line < lines.length := by
  simp only [scanLatexBlock] at h
  split at h
  · exact absurd h (by simp)
  · split at h
    · simp only [Option.some.injEq, Prod.mk.injEq] at h
      obtain ⟨hb, hn⟩ := h
      subst hb
      subst hn
      exact ⟨rfl, rfl, le_refl _, hs⟩
    · split at h
      · exact absurd h (by simp)
      · rename_i i hfind
        have hi : i < (lines.drop (start + 1)).length := findIdxQ_lt_length hfind
        rw [List.length_drop] at hi
        simp only [Option.some.injEq, Prod.mk.injEq] at h
        obtain ⟨hb, hn⟩ := h
        subst hb
        subst hn
        refine ⟨rfl, rfl, ?_, ?_⟩
        · show start ≤ start + i + 1
          omega
        · show start + i + 1 < lines.length
          omega

lemma scanMarkdownBlock_spec {lines : List Str} {start : Nat}
    {b : SyntaxBlock} {nxt : Nat} (hs : start < lines.length)
    (h : scanMarkdownBlock lines start = some (b, nxt)) :
    b.start_line = start ∧ nxt = b.end_line + 1 ∧ start ≤ b.end_line ∧
      b.end_line < lines.length := by
  simp only [scanMarkdownBlock] at h
  rcases hfind : List.findIdx? mdBreakLine (lines.drop (start + 1)) with _ | i <;>
    rw [hfind] at h
  · simp only [] at h
    split at h
    · rename_i hle
      simp only [Option.some.injEq, Prod.mk.injEq] at h
      obtain ⟨hb, hn⟩ := h
      subst hb
      subst hn
      refine ⟨rfl, rfl, hle, ?_⟩
      have hlen : 0 < lines.length := Nat.lt_of_le_of_lt (Nat.zero_le _) hs
      exact Nat.sub_lt hlen Nat.one_pos
    · exact absurd h (by simp)
  · have hi : i < (lines.drop (start + 1)).length := findIdxQ_lt_length hfind
    rw [List.length_drop] at hi
    simp only [] at h
    split at h
    · rename_i hle
      simp only [Option.some.injEq, Prod.mk.injEq] at h
      obtain ⟨hb, hn⟩ := h
      subst hb
      subst hn
      refine ⟨rfl, rfl, hle, ?_⟩
      show start + i < lines.length
      omega
    · exact absurd h (by simp)

lemma scanBlock_spec {lines : List Str} {start : Nat} {b : SyntaxBlock}
    {nxt : Nat} (hs : start < lines.length)
    (h : scanBlock lines start = some (b, nxt)) :
    b.start_line = start ∧ nxt = b.end_line + 1 ∧ start ≤ b.end_line ∧
      b.end_line < lines.length ∧ rustTrim (lineAt lines start) ≠ [] := by
  simp only [scanBlock] at h
  split at h
  · rename_i hpre
    refine ⟨(scanOrgBlock_spec h).1, (scanOrgBlock_spec h).2.1,
      (scanOrgBlock_spec h).2.2.1, (scanOrgBlock_spec h).2.2.2, ?_⟩
    exact rustTrim_ne_nil_of_trimStart_prefix hpre (by decide)
  · split at h
    · rename_i hpre
      refine ⟨(scanMarkdownCodeBlock_spec h).1, (scanMarkdownCodeBlock_spec h).2.1,
        (scanMarkdownCodeBlock_spec h).2.2.1, (scanMarkdownCodeBlock_spec h).2.2.2, ?_⟩
      exact rustTrim_ne_nil_of_rustTrim_prefix hpre
    · split at h
      · rename_i hdd
        refine ⟨(scanLatexBlock_spec hs h).1, (scanLatexBlock_spec hs h).2.1,
          (scanLatexBlock_spec hs h).2.2.1, (scanLatexBlock_spec hs h).2.2.2, ?_⟩
        exact rustTrim_ne_nil_of_mem (mem_of_containsSub_cons hdd) (by decide)
      · split at h
        · rename_i hne
          refine ⟨(scanMarkdownBlock_spec hs h).1, (scanMarkdownBlock_spec hs h).2.1,
            (scanMarkdownBlock_spec hs h).2.2.1, (scanMarkdownBlock_spec hs h).2.2.2, ?_⟩
          simpa using hne
        · exact absurd h (by simp)

/-- Loop invariant for the detector: every produced block starts at or
after the scan position, is well-formed, starts on a non-blank line, and
the produced blocks are pairwise ordered and disjoint. -/
lemma detectLoop_spec (lines : List Str) :
    ∀ fuel pos,
      (∀ b ∈ detectLoop lines pos fuel,
        pos ≤ b.start_line ∧ b.start_line ≤ b.end_line ∧
          b.end_line < lines.length ∧
          rustTrim (lineAt lines b.start_line) ≠ []) ∧
      List.Pairwise (fun a b : SyntaxBlock => a.end_line < b.start_line)
        (detectLoop lines pos fuel) := by
  intro fuel
  induction fuel with
  | zero => intro pos; simp [detectLoop]
  | succ fuel ih =>
    intro pos
    rw [detectLoop]
    split
    · rename_i hlt
      split
      · rename_i b nxt hscan
        obtain ⟨hstart, hnxt, hle, hend, hnb⟩ := scanBlock_spec hlt hscan
        obtain ⟨ihmem, ihpw⟩ := ih nxt
        constructor
        · intro b' hb'
          rcases List.mem_cons.mp hb' with rfl | htail
          · refine ⟨by omega, by omega, hend, ?_⟩
            rw [hstart]
            exact hnb
          · obtain ⟨h1, h2, h3, h4⟩ := ihmem b' htail
            exact ⟨le_trans (by omega) h1, h2, h3, h4⟩
        · refine List.pairwise_cons.mpr ⟨?_, ihpw⟩
          intro b' hb'
          have := (ihmem b' hb').1
          omega
      · rename_i hscan
        obtain ⟨ihmem, ihpw⟩ := ih (pos + 1)
        refine ⟨?_, ihpw⟩
        intro b' hb'
        obtain ⟨h1, h2, h3, h4⟩ := ihmem b' hb'
        exact ⟨by omega, h2, h3, h4⟩
    · simp

/-- Claim C1 (amended). For every input text, the blocks returned by
`BlockDetector::detect` are pairwise disjoint and appear in increasing
line order (each block ends strictly before the next one starts, so no
non-blank line is covered more than once), every block's line range is
well-formed and within the input, and every block starts on a non-blank
line — in particular a blank line is never emitted as its own block.
Full coverage of the non-blank lines, however, does not hold: a non-blank
line at which scanning fails (the opener of an unterminated fence, Org
block, or `$$` block) is silently skipped and belongs to no block. -/
theorem detect_ordered_disjoint_nonblank (text : Str) :
    List.Pairwise (fun a b : SyntaxBlock => a.end_line < b.start_line)
      (detect text) ∧
    ∀ b ∈ detect text,
      b.start_line ≤ b.end_line ∧ b.end_line < (rustLines text).length ∧
        rustTrim (lineAt (rustLines text) b.start_line) ≠ [] := by
  obtain ⟨hmem, hpw⟩ :=
    detectLoop_spec (rustLines text) ((rustLines text).length + 1) 0
  refine ⟨hpw, ?_⟩
  intro b hb
  obtain ⟨_, h2, h3, h4⟩ := hmem b hb
  exact ⟨h2, h3, h4⟩

/-- Witness for C1: the single-line document `hi` is detected as one
Markdown block with a well-formed, in-bounds range starting on a
non-blank line. -/
theorem detect_ordered_disjoint_nonblank_witness :
    (⟨SyntaxKind.Markdown, none, toChars "hi", 0, 0⟩ : SyntaxBlock).start_line ≤
        (⟨SyntaxKind.Markdown, none, toChars "hi", 0, 0⟩ : SyntaxBlock).end_line ∧
      (⟨SyntaxKind.Markdown, none, toChars "hi", 0, 0⟩ : SyntaxBlock).end_line <
        (rustLines (toChars "hi")).length ∧
      rustTrim (lineAt (rustLines (toChars "hi"))
        (⟨SyntaxKind.Markdown, none, toChars "hi", 0, 0⟩ : SyntaxBlock).start_line) ≠ [] :=
  (detect_ordered_disjoint_nonblank (toChars "hi")).2
    ⟨SyntaxKind.Markdown, none, toChars "hi", 0, 0⟩ (by decide)

/-- Counterexample to C1 as stated: the one-line document containing
just an unterminated code fence has a non-blank line, yet `detect`
returns no blocks at all, so the blocks do not cover every non-blank
line of the input. -/
theorem detect_coverage_counterexample :
    detect (toChars "```") = [] ∧
      rustLines (toChars "```") = [toChars "```"] ∧
      rustTrim (toChars "```") ≠ [] := by
  refine ⟨by decide, by decide, by decide⟩

/-! ## Parser interface and block manager (`src/parser/interface.rs`,
`src/parser/mod.rs`, `src/parser/manager.rs`) -/

/-- Error types for parsing (`ParseError` in `src/parser/interface.rs`). -/
inductive ParseError where
  | SyntaxError (line : Nat) (message : Str)
  | UnsupportedSyntax (s : Str)
  | DetectionFailed (s : Str)
  | Other (s : Str)

/-- The `Display` rendering of a `ParseError` (its `to_string()`). -/
def ParseError.toStr : ParseError → Str
  | .SyntaxError line message =>
    toChars "Syntax error at line " ++ natToStr line ++ toChars ": " ++ message
  | .UnsupportedSyntax s => toChars "Unsupported syntax: " ++ s
  | .DetectionFailed s => toChars "Block detection failed: " ++ s
  | .Other s => toChars "Parse error: " ++ s

/-- Block metadata (`BlockMetadata` in `src/parser/mod.rs`). -/
structure BlockMetadata where
  heading_level : Option Nat
  id : Option Str
  todo_state : Option Str
  properties : List (Str × Str)

/-- `BlockMetadata::default()`. -/
def BlockMetadata.default : BlockMetadata :=
  { heading_level := none, id := none, todo_state := none, properties := [] }

/-- A block with syntax type, raw text and parsed AST (`HybridBlock` in
`src/parser/mod.rs`). -/
structure HybridBlock where
  syntax_kind : SyntaxKind
  raw_text : Str
  ast : Block
  metadata : BlockMetadata
  line_range : Nat × Nat

/-- `HybridBlock::new`. -/
def HybridBlock.new (syntax_kind : SyntaxKind) (raw_text : Str) (ast : Block)
    (line_range : Nat × Nat) : HybridBlock :=
  { syntax_kind := syntax_kind, raw_text := raw_text, ast := ast,
    metadata := BlockMetadata.default, line_range := line_range }

/-- `HybridBlock::with_metadata`. -/
def HybridBlock.withMetadata (b : HybridBlock) (metadata : BlockMetadata) :
    HybridBlock :=
  { b with metadata := metadata }

/-- A dialect parser, modelled as its record of behaviours (the `Parser`
trait object of `src/parser/interface.rs`). -/
structure Parser where
  syntax_kind : SyntaxKind
  parse : Str → Nat → Except ParseError (Block × BlockMetadata)
  render : Block → BlockMetadata → Str
  can_handle : Str → Bool

/-- The registry lookup (`ParserRegistry::get`); the `HashMap` from
syntax kinds to parsers is modelled as the lookup function it induces. -/
abbrev ParserRegistry := SyntaxKind → Option Parser

/-- The manager's error message for a missing parser
(`format!("No parser for {:?}", kind)`). -/
def noParserMsg (k : SyntaxKind) : Str :=
  toChars "No parser for " ++ k.debugStr

/-- The block manager state (`BlockManager` in `src/parser/manager.rs`).
The detector field carries no state (its configuration is unused), so it
is omitted; the dirty `HashSet<usize>` is a `Finset ℕ`. -/
structure BlockManager where
  blocks : List HybridBlock
  parser_registry : ParserRegistry
  dirty_blocks : Finset Nat

/-- One iteration of the `parse_document` loop body: registry lookup
(missing parser becomes `No parser for {:?}`) then `parser.parse`
(failure stringified via `Display`). -/
def parseStep (reg : ParserRegistry) (raw : SyntaxBlock) :
    Except Str HybridBlock :=
  match reg raw.syntax_kind with
  | none => .error (noParserMsg raw.syntax_kind)
  | some p =>
    match p.parse raw.content raw.start_line with
    | .error e => .error e.toStr
    | .ok (ast, metadata) =>
      .ok ((HybridBlock.new raw.syntax_kind raw.content ast
        (raw.start_line, raw.end_line)).withMetadata metadata)

/-- The `parse_document` loop over the detected raw blocks, pushing each
parsed `HybridBlock` onto the (initially cleared) collection and
stopping with the first error. -/
def parseRaws (reg : ParserRegistry) :
    List SyntaxBlock → List HybridBlock → Except Str Unit × List HybridBlock
  | [], acc => (.ok (), acc)
  | raw :: rest, acc =>
    match parseStep reg raw with
    | .error msg => (.error msg, acc)
    | .ok hb => parseRaws reg rest (acc ++ [hb])

/-- `BlockManager::parse_document`: clear blocks and dirty set, detect,
then parse each raw block in order; the mutated manager state is
returned alongside the `Result`. -/
def parse_document (m : BlockManager) (text : Str) :
    Except Str Unit × BlockManager :=
  let raw_blocks := detect text
  let r := parseRaws m.parser_registry raw_blocks []
  (r.1, { m with blocks := r.2, dirty_blocks := ∅ })

/-- `BlockManager::blocks`: a pure read of the collection (returned with
the unchanged state, mirroring the `&self` receiver). -/
def blocksRead (m : BlockManager) : List HybridBlock × BlockManager :=
  (m.blocks, m)

/-- `BlockManager::update_block_text`: re-parse `new_text` with the
block's own parser at its existing line offset; on success replace
`raw_text`, `ast` and `metadata` and mark the index dirty. -/
def update_block_text (m : BlockManager) (index : Nat) (new_text : Str) :
    Except Str Unit × BlockManager :=
  match m.blocks[index]? with
  | none => (.error (toChars "Block index out of range"), m)
  | some block =>
    match m.parser_registry block.syntax_kind with
    | none => (.error (noParserMsg block.syntax_kind), m)
    | some p =>
      match p.parse new_text block.line_range.1 with
      | .error e => (.error e.toStr, m)
      | .ok (ast, metadata) =>
        (.ok (),
          { m with
            blocks := m.blocks.set index
              { block with raw_text := new_text, ast := ast, metadata := metadata },
            dirty_blocks := insert index m.dirty_blocks })

/-- `BlockManager::clear_dirty`. -/
def clear_dirty (m : BlockManager) : BlockManager :=
  { m with dirty_blocks := ∅ }

/-- `BlockManager::insert_block`: insert at `index`, then mark `index`
and every later index of the new collection dirty. -/
def insert_block (m : BlockManager) (index : Nat) (block : HybridBlock) :
    BlockManager :=
  let blocks := m.blocks.insertIdx index block
  let dirty :=
    (List.range' (index + 1) (blocks.length - (index + 1))).foldl
      (fun s i => insert i s) (insert index m.dirty_blocks)
  { m with blocks := blocks, dirty_blocks := dirty }

/-- `BlockManager::remove_block`: remove at `index` when in range,
dropping `index` from the dirty set and marking every index from
`index` to the end of the shrunk collection dirty. -/
def remove_block (m : BlockManager) (index : Nat) :
    Option HybridBlock × BlockManager :=
  if h : index < m.blocks.length then
    let removed := m.blocks.get ⟨index, h⟩
    let blocks := m.blocks.eraseIdx index
    let dirty :=
      (List.range' index (blocks.length - index)).foldl
        (fun s i => insert i s) (m.dirty_blocks.erase index)
    (some removed, { m with blocks := blocks, dirty_blocks := dirty })
  else
    (none, m)

/-! ## Manager lemmas and claims C2, C3, C4 -/

/-- The `parse_document` loop either parses every raw block (returning
them all, appended to the accumulator) or stops at the first failing
block after a successfully parsed prefix. -/
lemma parseRaws_spec (reg : ParserRegistry) :
    ∀ raws acc,
      ((∀ r ∈ raws, (parseStep reg r).isOk) ∧
        parseRaws reg raws acc =
          (.ok (), acc ++ raws.filterMap (fun r => (parseStep reg r).toOption))) ∨
      (∃ pre raw post msg, raws = pre ++ raw :: post ∧
        (∀ r ∈ pre, (parseStep reg r).isOk) ∧
        parseStep reg raw = .error msg ∧
        parseRaws reg raws acc =
          (.error msg, acc ++ pre.filterMap (fun r => (parseStep reg r).toOption))) := by
  intro raws
  induction raws with
  | nil => intro acc; left; simp [parseRaws]
  | cons raw rest ih =>
    intro acc
    rcases hstep : parseStep reg raw with msg | hb
    · right
      exact ⟨[], raw, rest, msg, rfl, by simp, hstep, by simp [parseRaws, hstep]⟩
    · rcases ih (acc ++ [hb]) with ⟨hall, heq⟩ | ⟨pre, raw', post, msg, hsplit, hpre, herr, heq⟩
      · left
        constructor
        · intro r hr
          rcases List.mem_cons.mp hr with rfl | hr'
          · simp [hstep, Except.isOk, Except.toBool]
          · exact hall r hr'
        · simp [parseRaws, hstep, heq, List.filterMap_cons, Except.toOption]
      · right
        refine ⟨raw :: pre, raw', post, msg, by simp [hsplit], ?_, herr, ?_⟩
        · intro r hr
          rcases List.mem_cons.mp hr with rfl | hr'
          · simp [hstep, Except.isOk, Except.toBool]
          · exact hpre r hr'
        · simp [parseRaws, hstep, heq, List.filterMap_cons, Except.toOption]

/-- Claim C2. A failing `parse_document` call reports the first failing
detected block: a missing parser yields `No parser for <kind>` naming
the detected kind, a parser failure propagates that parser's stringified
error.  The prior document is not preserved: the post-state depends only
on the registry (never on the previous blocks or dirty set), the dirty
set is always left empty, and after a failure the block collection holds
exactly the successfully parsed prefix of the new document (empty when
the first block fails), not the previous blocks. -/
theorem parse_document_failure_state (m : BlockManager) (text : Str) :
    (parse_document m text).2.dirty_blocks = ∅ ∧
    (∀ m' : BlockManager, m'.parser_registry = m.parser_registry →
      (parse_document m' text).2.blocks = (parse_document m text).2.blocks ∧
      (parse_document m' text).2.dirty_blocks =
        (parse_document m text).2.dirty_blocks) ∧
    (∀ msg, (parse_document m text).1 = .error msg →
      ∃ pre raw post, detect text = pre ++ raw :: post ∧
        (∀ r ∈ pre, (parseStep m.parser_registry r).isOk) ∧
        parseStep m.parser_registry raw = .error msg ∧
        (m.parser_registry raw.syntax_kind = none →
          msg = noParserMsg raw.syntax_kind) ∧
        (∀ p, m.parser_registry raw.syntax_kind = some p →
          ∃ e, p.parse raw.content raw.start_line = .error e ∧
            msg = e.toStr) ∧
        (parse_document m text).2.blocks =
          pre.filterMap (fun r => (parseStep m.parser_registry r).toOption)) := by
  refine ⟨rfl, ?_, ?_⟩
  · intro m' hreg
    simp [parse_document, hreg]
  · intro msg hmsg
    rcases parseRaws_spec m.parser_registry (detect text) [] with
      ⟨_, heq⟩ | ⟨pre, raw, post, msg', hsplit, hpre, herr, heq⟩
    · rw [parse_document.eq_def] at hmsg
      simp only [heq] at hmsg
      exact absurd hmsg (by simp)
    · have hmsg' : msg' = msg := by
        rw [parse_document.eq_def] at hmsg
        simp only [heq] at hmsg
        simpa using hmsg
      rw [hmsg'] at herr heq
      refine ⟨pre, raw, post, hsplit, hpre, herr, ?_, ?_, ?_⟩
      · intro hnone
        rw [parseStep] at herr
        simp only [hnone] at herr
        exact (by simpa using herr : noParserMsg raw.syntax_kind = msg).symm
      · intro p hp
        rw [parseStep] at herr
        rcases he : p.parse raw.content raw.start_line with e | v
        · simp only [hp, he] at herr
          exact ⟨e, rfl, (by simpa using herr : ParseError.toStr e = msg).symm⟩
        · rcases v with ⟨ast, metadata⟩
          simp only [hp, he] at herr
          exact absurd herr (by simp)
      · rw [parse_document.eq_def]
        simp [heq]

/-- Witness for C2: with an empty registry, parsing the document `hi`
fails on its first (Markdown) block with the kind named in the error,
and the manager is left with no blocks and an empty dirty set. -/
theorem parse_document_failure_state_witness :
    ∃ pre raw post,
      detect (toChars "hi") = pre ++ raw :: post ∧
      (∀ r ∈ pre,
        (parseStep (BlockManager.mk [] (fun _ => none) ∅).parser_registry r).isOk) ∧
      parseStep (BlockManager.mk [] (fun _ => none) ∅).parser_registry raw =
        .error (noParserMsg SyntaxKind.Markdown) ∧
      ((BlockManager.mk [] (fun _ => none) ∅).parser_registry raw.syntax_kind = none →
        noParserMsg SyntaxKind.Markdown = noParserMsg raw.syntax_kind) ∧
      (∀ p,
        (BlockManager.mk [] (fun _ => none) ∅).parser_registry raw.syntax_kind = some p →
        ∃ e, p.parse raw.content raw.start_line = .error e ∧
          noParserMsg SyntaxKind.Markdown = e.toStr) ∧
      (parse_document (BlockManager.mk [] (fun _ => none) ∅) (toChars "hi")).2.blocks =
        pre.filterMap
          (fun r => (parseStep (BlockManager.mk [] (fun _ => none) ∅).parser_registry r).toOption) :=
  (parse_document_failure_state (BlockManager.mk [] (fun _ => none) ∅)
    (toChars "hi")).2.2 (noParserMsg SyntaxKind.Markdown) rfl

/-- Claim C3. `update_block_text` succeeds exactly when the index is in
range, a parser is registered for the block's kind, and the parser
accepts the new text; out-of-range indices produce the
`Block index out of range` error; every error leaves the manager state
completely unchanged (raw text, AST, metadata and dirty set); success
replaces exactly the addressed block's raw text, AST and metadata and
marks that index dirty. -/
theorem update_block_text_spec (m : BlockManager) (index : Nat) (new_text : Str) :
    ((update_block_text m index new_text).1 = .ok () ↔
      ∃ block p ast metadata,
        m.blocks[index]? = some block ∧
        m.parser_registry block.syntax_kind = some p ∧
        p.parse new_text block.line_range.1 = .ok (ast, metadata)) ∧
    (m.blocks.length ≤ index →
      (update_block_text m index new_text).1 =
        .error (toChars "Block index out of range")) ∧
    (∀ msg, (update_block_text m index new_text).1 = .error msg →
      (update_block_text m index new_text).2 = m) ∧
    (∀ block p ast metadata,
      m.blocks[index]? = some block →
      m.parser_registry block.syntax_kind = some p →
      p.parse new_text block.line_range.1 = .ok (ast, metadata) →
      (update_block_text m index new_text).1 = .ok () ∧
      (update_block_text m index new_text).2.blocks =
        m.blocks.set index
          { block with raw_text := new_text, ast := ast, metadata := metadata } ∧
      (update_block_text m index new_text).2.dirty_blocks =
        insert index m.dirty_blocks) := by
  rcases hget : m.blocks[index]? with _ | block
  · refine ⟨?_, ?_, ?_, ?_⟩
    · rw [update_block_text.eq_def]
      simp only [hget]
      exact ⟨fun h => absurd h (by simp), fun h => absurd h.choose_spec.choose_spec.choose_spec.choose_spec.1 (by simp)⟩
    · intro _
      rw [update_block_text.eq_def]
      simp [hget]
    · intro msg _
      rw [update_block_text.eq_def]
      simp [hget]
    · intro block p ast metadata hblock
      exact absurd hblock (by simp)
  · rcases hreg : m.parser_registry block.syntax_kind with _ | p
    · refine ⟨?_, ?_, ?_, ?_⟩
      · rw [update_block_text.eq_def]
        simp only [hget, hreg]
        constructor
        · intro h
          exact absurd h (by simp)
        · rintro ⟨block', p', ast, metadata, hblock, hreg', hparse'⟩
          obtain rfl : block = block' := by injection hblock
          rw [hreg] at hreg'
          exact absurd hreg' (by simp)
      · intro hlen
        have hnone : m.blocks[index]? = none := List.getElem?_eq_none hlen
        rw [hget] at hnone
        exact absurd hnone (by simp)
      · intro msg _
        rw [update_block_text.eq_def]
        simp [hget, hreg]
      · intro block' p' ast metadata hblock hreg'
        obtain rfl : block = block' := by injection hblock
        rw [hreg] at hreg'
        exact absurd hreg' (by simp)
    · rcases hparse : p.parse new_text block.line_range.1 with e | v
      · refine ⟨?_, ?_, ?_, ?_⟩
        · rw [update_block_text.eq_def]
          simp only [hget, hreg, hparse]
          constructor
          · intro h
            exact absurd h (by simp)
          · rintro ⟨block', p', ast, metadata, hblock, hreg', hparse'⟩
            obtain rfl : block = block' := by injection hblock
            rw [hreg] at hreg'
            obtain rfl : p = p' := by injection hreg'
            rw [hparse] at hparse'
            exact absurd hparse' (by simp)
        · intro hlen
          have hnone : m.blocks[index]? = none := List.getElem?_eq_none hlen
          rw [hget] at hnone
          exact absurd hnone (by simp)
        · intro msg _
          rw [update_block_text.eq_def]
          simp [hget, hreg, hparse]
        · intro block' p' ast metadata hblock hreg' hparse'
          obtain rfl : block = block' := by injection hblock
          rw [hreg] at hreg'
          obtain rfl : p = p' := by injection hreg'
          rw [hparse] at hparse'
          exact absurd hparse' (by simp)
      · rcases v with ⟨ast, metadata⟩
        refine ⟨?_, ?_, ?_, ?_⟩
        · rw [update_block_text.eq_def]
          simp only [hget, hreg, hparse]
          exact ⟨fun _ => ⟨block, p, ast, metadata, rfl, hreg, hparse⟩, fun _ => trivial⟩
        · intro hlen
          have hnone : m.blocks[index]? = none := List.getElem?_eq_none hlen
          rw [hget] at hnone
          exact absurd hnone (by simp)
        · intro msg hmsg
          rw [update_block_text.eq_def] at hmsg
          simp only [hget, hreg, hparse] at hmsg
          exact absurd hmsg (by simp)
        · intro block' p' ast' metadata' hblock hreg' hparse'
          obtain rfl : block = block' := by injection hblock
          rw [hreg] at hreg'
          obtain rfl : p = p' := by injection hreg'
          rw [hparse] at hparse'
          obtain ⟨rfl, rfl⟩ : ast = ast' ∧ metadata = metadata' := by
            simpa using hparse'
          refine ⟨?_, ?_, ?_⟩ <;>
            rw [update_block_text.eq_def] <;>
            simp [hget, hreg, hparse]

/-- A Markdown parser stub whose `parse` always succeeds, used to
exercise the manager theorems on concrete states. -/
def mdOkParser : Parser :=
  { syntax_kind := SyntaxKind.Markdown,
    parse := fun t _ => .ok (Block.paragraph [Inline.Text t], BlockMetadata.default),
    render := fun _ _ => [],
    can_handle := fun _ => true }

/-- A concrete one-block manager state for witnesses. -/
def wManager : BlockManager :=
  { blocks := [HybridBlock.new SyntaxKind.Markdown (toChars "a") (Block.paragraph []) (0, 0)],
    parser_registry := fun k => if k = SyntaxKind.Markdown then some mdOkParser else none,
    dirty_blocks := ∅ }

/-- Witness for C3: updating block 0 of a one-block manager succeeds,
replaces raw text, AST and metadata of that block, and marks index 0
dirty. -/
theorem update_block_text_spec_witness :
    (update_block_text wManager 0 (toChars "b")).1 = Except.ok () ∧
    (update_block_text wManager 0 (toChars "b")).2.blocks =
      wManager.blocks.set 0
        { HybridBlock.new SyntaxKind.Markdown (toChars "a") (Block.paragraph []) (0, 0) with
          raw_text := toChars "b",
          ast := Block.paragraph [Inline.Text (toChars "b")],
          metadata := BlockMetadata.default } ∧
    (update_block_text wManager 0 (toChars "b")).2.dirty_blocks =
      insert 0 wManager.dirty_blocks :=
  (update_block_text_spec wManager 0 (toChars "b")).2.2.2
    (HybridBlock.new SyntaxKind.Markdown (toChars "a") (Block.paragraph []) (0, 0))
    mdOkParser (Block.paragraph [Inline.Text (toChars "b")]) BlockMetadata.default
    rfl rfl rfl

/-- Membership in a fold that inserts a list of indices into a finite
set (the manager's dirty-marking loops). -/
lemma mem_foldl_insert (l : List Nat) (s : Finset Nat) (x : Nat) :
    x ∈ l.foldl (fun s i => insert i s) s ↔ x ∈ l ∨ x ∈ s := by
  induction l generalizing s with
  | nil => simp
  | cons a rest ih =>
    simp only [List.foldl_cons, ih, List.mem_cons, Finset.mem_insert]
    tauto

/-- Claim C4. After `insert_block(i, _)` at a valid index the collection
grows by one and the dirty set contains every index `>= i` of the new
collection; `clear_dirty` empties the dirty set and leaves the blocks
unchanged; and the pure `blocks()` read returns the collection with the
manager state untouched. -/
theorem dirty_tracking_invariants (m : BlockManager) (i : Nat) (b : HybridBlock)
    (h : i ≤ m.blocks.length) :
    (insert_block m i b).blocks.length = m.blocks.length + 1 ∧
    (∀ j, i ≤ j → j < (insert_block m i b).blocks.length →
      j ∈ (insert_block m i b).dirty_blocks) ∧
    (clear_dirty m).dirty_blocks = ∅ ∧
    (clear_dirty m).blocks = m.blocks ∧
    blocksRead m = (m.blocks, m) := by
  have hlen : (m.blocks.insertIdx i b).length = m.blocks.length + 1 :=
    List.length_insertIdx i m.blocks h
  refine ⟨hlen, ?_, rfl, rfl, rfl⟩
  intro j hij hj
  have hj' : j < m.blocks.length + 1 := by
    simpa [insert_block, hlen] using hj
  show j ∈ (List.range' (i + 1) ((m.blocks.insertIdx i b).length - (i + 1))).foldl
      (fun s i => insert i s) (insert i m.dirty_blocks)
  rw [mem_foldl_insert]
  rcases Nat.eq_or_lt_of_le hij with rfl | hlt
  · right
    exact Finset.mem_insert_self _ _
  · left
    rw [hlen, List.mem_range'_1]
    omega

/-- Witness for C4: inserting at index 0 of the one-block manager
dirties indices 0 and 1, and `clear_dirty` resets the dirty set. -/
theorem dirty_tracking_invariants_witness :
    (insert_block wManager 0
        (HybridBlock.new SyntaxKind.Markdown (toChars "c") (Block.paragraph []) (1, 1))).blocks.length =
      wManager.blocks.length + 1 ∧
    (1 : Nat) ∈ (insert_block wManager 0
        (HybridBlock.new SyntaxKind.Markdown (toChars "c") (Block.paragraph []) (1, 1))).dirty_blocks ∧
    (clear_dirty wManager).dirty_blocks = ∅ := by
  have h := dirty_tracking_invariants wManager 0
    (HybridBlock.new SyntaxKind.Markdown (toChars "c") (Block.paragraph []) (1, 1))
    (by decide)
  refine ⟨h.1, h.2.1 1 (by decide) ?_, h.2.2.1⟩
  rw [h.1]
  decide

/-! ## Section tree builder (`src/document/tree.rs`) -/

/-- Node identifier (`NodeId` in `src/document/tree.rs`, a `u64`). -/
structure NodeId where
  val : Nat
deriving DecidableEq, Repr

/-- A character span (`TextSpan` in `src/document/span.rs`). -/
structure TextSpan where
  start : Nat
  stop : Nat
deriving DecidableEq, Repr

/-- An identified, span-annotated block (`BlockNode` in
`src/document/tree.rs`). -/
structure BlockNode where
  id : NodeId
  block : Block
  span : TextSpan

/-- A heading-rooted section view (`Section` in `src/document/tree.rs`);
level 0 is the implicit root. -/
structure Section where
  id : NodeId
  level : Nat
  title : Option (List Inline)
  blocks : List BlockNode
  children : List Section

/-- The `while stack.len() > 1 && top.level >= level` pop-and-attach
loop of `build_section_tree`; the stack is kept as its top plus the
remaining entries (bottom last). -/
def popAttach (level : Nat) : Section → List Section → List Section
  | s, [] => [s]
  | s, t :: rest =>
    if level ≤ s.level then
      popAttach level { t with children := t.children ++ [s] } rest
    else s :: t :: rest

/-- The end-of-input drain loop of `build_section_tree`: pop and attach
everything down to the root. -/
def popAll : Section → List Section → Section
  | s, [] => s
  | s, t :: rest => popAll { t with children := t.children ++ [s] } rest

/-- One step of `build_section_tree`'s `for` loop: headings pop-then-push
a new section, other nodes are appended to the current stack top. -/
def stepNode (stack : Section × List Section) (node : BlockNode) :
    Section × List Section :=
  match node.block with
  | .Leaf (.Heading level content) =>
    (⟨node.id, level, some content, [], []⟩, popAttach level stack.1 stack.2)
  | _ => ({ stack.1 with blocks := stack.1.blocks ++ [node] }, stack.2)

/-- The implicit level-0 root section. -/
def rootSection : Section := ⟨⟨0⟩, 0, none, [], []⟩

/-- `build_section_tree` (`src/document/tree.rs`). -/
def build_section_tree (blocks : List BlockNode) : Section :=
  let s := blocks.foldl stepNode (rootSection, [])
  popAll s.1 s.2

/-- Whether a `BlockNode` holds a heading, as `build_section_tree`
matches it. -/
def BlockNode.isHeading (n : BlockNode) : Bool :=
  match n.block with
  | .Leaf (.Heading _ _) => true
  | _ => false

/-- Characterization of the heading match in `build_section_tree`. -/
lemma isHeading_iff (n : BlockNode) :
    n.isHeading = true ↔
      ∃ lv cnt, n.block = Block.Leaf (LeafBlock.Heading lv cnt) := by
  rw [BlockNode.isHeading]
  rcases hb : n.block with c | lf | i | lb
  · simp [hb]
  · rcases lf with c | ⟨lv, cnt⟩ | ⟨a, s⟩ | ⟨l, c2⟩ | c3 | _ | a2 <;> simp [hb]
  · simp [hb]
  · simp [hb]

/-- A non-heading node is appended to the blocks of the stack top. -/
lemma stepNode_nonheading (s : Section × List Section) (n : BlockNode)
    (hn : n.isHeading = false) :
    stepNode s n = ({ s.1 with blocks := s.1.blocks ++ [n] }, s.2) := by
  rw [BlockNode.isHeading] at hn
  rcases hb : n.block with c | lf | i | lb <;> rw [hb] at hn
  · rw [stepNode.eq_def, hb]
  · rcases lf with c | ⟨lv, cnt⟩ | ⟨a, s'⟩ | ⟨l, c2⟩ | c3 | _ | a2
    · rw [stepNode.eq_def, hb]
    · simp at hn
    · rw [stepNode.eq_def, hb]
    · rw [stepNode.eq_def, hb]
    · rw [stepNode.eq_def, hb]
    · rw [stepNode.eq_def, hb]
    · rw [stepNode.eq_def, hb]
  · rw [stepNode.eq_def, hb]
  · rw [stepNode.eq_def, hb]

/-- A heading node pops-and-attaches, then pushes its new section. -/
lemma stepNode_heading (s : Section × List Section) (n : BlockNode)
    (lv : Nat) (cnt : List Inline)
    (hb : n.block = Block.Leaf (LeafBlock.Heading lv cnt)) :
    stepNode s n = (⟨n.id, lv, some cnt, [], []⟩, popAttach lv s.1 s.2) := by
  rw [stepNode.eq_def, hb]

/-- Processing a run of non-heading nodes only appends them, in order,
to the blocks of the current stack top. -/
lemma foldl_stepNode_nonheading :
    ∀ (ps : List BlockNode) (top : Section) (rest : List Section),
      (∀ n ∈ ps, n.isHeading = false) →
      ps.foldl stepNode (top, rest) =
        ({ top with blocks := top.blocks ++ ps }, rest) := by
  intro ps
  induction ps with
  | nil =>
    intro top rest _
    cases top
    simp only [List.foldl_nil, List.append_nil]
  | cons n ps ih =>
    intro top rest hall
    have hn : n.isHeading = false := hall n (List.mem_cons_self n ps)
    rw [List.foldl_cons, stepNode_nonheading (top, rest) n hn,
      ih _ rest (fun x hx => hall x (List.mem_cons_of_mem _ hx))]
    simp

/-- The pop-and-attach loop never empties the stack and never touches the
content blocks of its bottom element. -/
lemma popAttach_last :
    ∀ (rest : List Section) (s : Section) (level : Nat), rest ≠ [] →
      popAttach level s rest ≠ [] ∧
      ((popAttach level s rest).getLast?.map Section.blocks =
        rest.getLast?.map Section.blocks) := by
  intro rest
  induction rest with
  | nil => intro s level h; exact absurd rfl h
  | cons t rest ih =>
    intro s level _
    rw [popAttach]
    split
    · rcases rest with _ | ⟨t2, rest2⟩
      · rw [popAttach]
        exact ⟨by simp, by simp⟩
      · obtain ⟨h1, h2⟩ := ih { t with children := t.children ++ [s] } level (by simp)
        refine ⟨h1, ?_⟩
        rw [h2]
        simp
    · refine ⟨by simp, ?_⟩
      rcases rest with _ | ⟨t2, rest2⟩
      · simp
      · simp [List.getLast?_cons_cons]

/-- The drain loop returns the bottom of the stack (with new children
attached along the way), so the root's content blocks are preserved. -/
lemma popAll_blocks :
    ∀ (rest : List Section) (s : Section), rest ≠ [] →
      (popAll s rest).blocks = (rest.getLast?.map Section.blocks).getD [] := by
  intro rest
  induction rest with
  | nil => intro s h; exact absurd rfl h
  | cons t rest ih =>
    intro s _
    rw [popAll]
    rcases rest with _ | ⟨t2, rest2⟩
    · rw [popAll]
      simp
    · rw [ih _ (by simp)]
      simp [List.getLast?_cons_cons]

/-- Folding any nodes over a non-empty stack keeps it non-empty and
keeps the bottom element's content blocks. -/
lemma foldl_stepNode_last :
    ∀ (nodes : List BlockNode) (s : Section × List Section), s.2 ≠ [] →
      (nodes.foldl stepNode s).2 ≠ [] ∧
      ((nodes.foldl stepNode s).2.getLast?.map Section.blocks =
        s.2.getLast?.map Section.blocks) := by
  intro nodes
  induction nodes with
  | nil => intro s h; exact ⟨h, rfl⟩
  | cons n nodes ih =>
    intro s hs
    rw [List.foldl_cons]
    have hstep : (stepNode s n).2 ≠ [] ∧
        ((stepNode s n).2.getLast?.map Section.blocks =
          s.2.getLast?.map Section.blocks) := by
      rcases hhead : n.isHeading with _ | _
      · rw [stepNode_nonheading s n hhead]
        exact ⟨hs, rfl⟩
      · obtain ⟨lv, cnt, hb⟩ := (isHeading_iff n).mp hhead
        rw [stepNode_heading s n lv cnt hb]
        exact popAttach_last s.2 s.1 lv hs
    obtain ⟨h1, h2⟩ := ih (stepNode s n) hstep.1
    exact ⟨h1, h2.trans hstep.2⟩

/-- Claim C8. `build_section_tree` keeps all content preceding the first
heading in the root: for any run of non-heading nodes followed by a
heading and anything after it, the root's content blocks are exactly that
run.  Moreover, on the representative input with headings at levels
[1, 2, 1] — each followed by one paragraph — and a leading paragraph, the
result is the root holding the leading paragraph, with two level-1
children, the first of which has the level-2 section as its only child,
each section holding its own paragraph. -/
theorem build_section_tree_spec :
    (∀ (ps : List BlockNode) (h : BlockNode) (rest : List BlockNode),
      (∀ n ∈ ps, n.isHeading = false) → h.isHeading = true →
      (build_section_tree (ps ++ h :: rest)).blocks = ps) ∧
    build_section_tree
        [⟨⟨0⟩, Block.paragraph [Inline.Text (toChars "intro")], ⟨0, 0⟩⟩,
         ⟨⟨1⟩, Block.heading 1 [Inline.Text (toChars "h1")], ⟨0, 0⟩⟩,
         ⟨⟨2⟩, Block.paragraph [Inline.Text (toChars "a")], ⟨0, 0⟩⟩,
         ⟨⟨3⟩, Block.heading 2 [Inline.Text (toChars "h2")], ⟨0, 0⟩⟩,
         ⟨⟨4⟩, Block.paragraph [Inline.Text (toChars "b")], ⟨0, 0⟩⟩,
         ⟨⟨5⟩, Block.heading 1 [Inline.Text (toChars "h1b")], ⟨0, 0⟩⟩,
         ⟨⟨6⟩, Block.paragraph [Inline.Text (toChars "c")], ⟨0, 0⟩⟩] =
      ⟨⟨0⟩, 0, none,
        [⟨⟨0⟩, Block.paragraph [Inline.Text (toChars "intro")], ⟨0, 0⟩⟩],
        [⟨⟨1⟩, 1, some [Inline.Text (toChars "h1")],
           [⟨⟨2⟩, Block.paragraph [Inline.Text (toChars "a")], ⟨0, 0⟩⟩],
           [⟨⟨3⟩, 2, some [Inline.Text (toChars "h2")],
              [⟨⟨4⟩, Block.paragraph [Inline.Text (toChars "b")], ⟨0, 0⟩⟩],
              []⟩]⟩,
         ⟨⟨5⟩, 1, some [Inline.Text (toChars "h1b")],
           [⟨⟨6⟩, Block.paragraph [Inline.Text (toChars "c")], ⟨0, 0⟩⟩],
           []⟩]⟩ := by
  constructor
  · intro ps h rest hps hh
    obtain ⟨lv, cnt, hb⟩ := (isHeading_iff h).mp hh
    rw [build_section_tree]
    rw [List.foldl_append, foldl_stepNode_nonheading ps rootSection [] hps,
      List.foldl_cons,
      stepNode_heading ({ rootSection with blocks := rootSection.blocks ++ ps }, []) h lv cnt hb]
    rw [popAttach]
    obtain ⟨h1, h2⟩ := foldl_stepNode_last rest
      (⟨h.id, lv, some cnt, [], []⟩,
        [{ rootSection with blocks := rootSection.blocks ++ ps }]) (by simp)
    rcases hfin : (rest.foldl stepNode
      (⟨h.id, lv, some cnt, [], []⟩,
        [{ rootSection with blocks := rootSection.blocks ++ ps }])) with ⟨ftop, frest⟩
    rw [hfin] at h1 h2
    rw [popAll_blocks frest ftop h1, h2]
    simp [rootSection]
  · rfl

/-- Witness for C8: the general root-content statement applied to one
paragraph before a level-1 heading. -/
theorem build_section_tree_spec_witness :
    (build_section_tree
        ([⟨⟨7⟩, Block.paragraph [Inline.Text (toChars "p")], ⟨0, 0⟩⟩] ++
          ⟨⟨8⟩, Block.heading 1 [Inline.Text (toChars "t")], ⟨0, 0⟩⟩ ::
            [])).blocks =
      [⟨⟨7⟩, Block.paragraph [Inline.Text (toChars "p")], ⟨0, 0⟩⟩] :=
  build_section_tree_spec.1
    [⟨⟨7⟩, Block.paragraph [Inline.Text (toChars "p")], ⟨0, 0⟩⟩]
    ⟨⟨8⟩, Block.heading 1 [Inline.Text (toChars "t")], ⟨0, 0⟩⟩ []
    (by
      intro n hn
      simp only [List.mem_singleton] at hn
      subst hn
      rfl)
    rfl

/-! ## Org parsers (`src/parser/parsers/org.rs` and `src/formats/org.rs`) -/

/-- Join strings with a separator, as Rust `[..].join(sep)`. -/
def joinWith (sep : Str) (ls : List Str) : Str :=
  (List.intersperse sep ls).flatten

/-- `OrgParser::parse_heading_line` (`src/parser/parsers/org.rs`): a
heading needs 1–6 leading stars followed by one space; the title is the
trimmed remainder.  The `as u8` cast cannot truncate since the count is
below 7. -/
def parse_heading_line (line : Str) : Option (Nat × Str) :=
  if line.head? ≠ some '*' then none
  else
    let star_count := (line.takeWhile (fun c => c = '*')).length
    if star_count = 0 || 7 ≤ star_count then none
    else
      match line.drop star_count with
      | ' ' :: rest => some (star_count, rustTrim rest)
      | _ => none

/-- `OrgParser::render_inline_content`: the `Text` fragments joined with
single spaces. -/
def render_inline_content (content : List Inline) : Str :=
  joinWith (toChars " ")
    (content.filterMap (fun i =>
      match i with
      | .Text t => some t
      | _ => none))

/-- `OrgParser::parse` (`src/parser/parsers/org.rs`).  The
`#+BEGIN_SRC` body slice `lines[1..len-1]` is modelled with `dropLast`
(Rust panics on a one-line `#+BEGIN_SRC` input; no claim touches that
path). -/
def OrgParser.parse (raw_text : Str) (_line_offset : Nat) :
    Except ParseError (Block × BlockMetadata) :=
  let metadata := BlockMetadata.default
  let lines := rustLines raw_text
  if lines.isEmpty then .ok (Block.paragraph [], metadata)
  else
    let first_line := trimStart (lines.headD [])
    match parse_heading_line first_line with
    | some (level, title) =>
      let metadata := { metadata with heading_level := some level }
      let metadata :=
        if (toChars "TODO ").isPrefixOf title then
          { metadata with todo_state := some (toChars "TODO") }
        else if (toChars "DONE ").isPrefixOf title then
          { metadata with todo_state := some (toChars "DONE") }
        else metadata
      .ok (Block.heading level [Inline.Text title], metadata)
    | none =>
      match stripPrefix (toChars "#+BEGIN_SRC") first_line with
      | some afterSrc =>
        let language := rustTrim afterSrc
        let code_lines := (lines.drop 1).dropLast
        let code_content := joinWith (toChars "\n") code_lines
        .ok (Block.codeBlock
          (if language.isEmpty then none else some language) code_content,
          metadata)
      | none =>
        .ok (Block.paragraph [Inline.Text raw_text], metadata)

/-- `OrgParser::render` (`src/parser/parsers/org.rs`). -/
def OrgParser.render (block : Block) (metadata : BlockMetadata) : Str :=
  match block with
  | .Leaf (.Heading level content) =>
    let stars := List.replicate level '*'
    let text := render_inline_content content
    let todo_prefix :=
      match metadata.todo_state with
      | some s => s ++ toChars " "
      | none => []
    stars ++ toChars " " ++ todo_prefix ++ text
  | .Leaf (.CodeBlock language content) =>
    let lang := language.getD []
    toChars "#+BEGIN_SRC " ++ lang ++ toChars "\n" ++ content ++
      toChars "\n#+END_SRC"
  | .Leaf (.Paragraph content) => render_inline_content content
  | _ => []

/-- Rust `str::trim_matches(c)`: strip all leading and trailing
occurrences of `c`. -/
def trimMatchesChar (c : Char) (s : Str) : Str :=
  ((s.dropWhile (fun x => x = c)).reverse.dropWhile (fun x => x = c)).reverse

/-- The title/tags accumulation loop of the whole-document Org
`parse_heading` (`src/formats/org.rs`): words before the first
`:tag:...:` word become `Text` inlines, a tag word ends the loop. -/
def orgHeadingTitleLoop : List Str → List Inline × List Str
  | [] => ([], [])
  | part :: rest =>
    if part.head? = some ':' ∧ part.getLast? = some ':' then
      ([], splitChar ':' (trimMatchesChar ':' part))
    else
      let r := orgHeadingTitleLoop rest
      (Inline.Text part :: r.1, r.2)

/-- The whole-document Org heading parser (`parser::parse_heading` in
`src/formats/org.rs`): any line whose trimmed form starts with `*`, with
the unbounded star count as level (the Rust `as u8` cast is modelled by
`% 256`), an optional all-uppercase leading TODO keyword, then title
words and an optional trailing tag group. -/
def orgFormatParseHeading (line : Str) :
    Option (Nat × Option Str × List Inline × List Str) :=
  let trimmed := trimStart line
  if trimmed.head? ≠ some '*' then none
  else
    let level := (trimmed.takeWhile (fun c => c = '*')).length
    let rest := rustTrim (trimmed.drop level)
    let parts := splitWhitespace rest
    let hasTodo :=
      match parts.head? with
      | some s => s.all rustIsUppercase
      | none => false
    let todo := if hasTodo then parts.head? else none
    let rem := if hasTodo then parts.drop 1 else parts
    let r := orgHeadingTitleLoop rem
    some (level % 256, todo, r.1, r.2)

/-- Claim C9. The block-manager-facing Org parser and the whole-document
Org format parser disagree on heading lines: the block-level
`parse_heading_line` rejects every line with seven or more stars
(for any star count `n ≥ 7` and any title), while the whole-document
`parse_heading` accepts the concrete line `******* Title` as a heading
of level 7 — the unbounded star count. -/
theorem org_parsers_disagree_on_stars :
    (∀ (n : Nat) (t : Str), 7 ≤ n →
      parse_heading_line (List.replicate n '*' ++ ' ' :: t) = none) ∧
    parse_heading_line (toChars "******* Title") = none ∧
    orgFormatParseHeading (toChars "******* Title") =
      some (7, none, [Inline.Text (toChars "Title")], []) := by
  refine ⟨?_, by decide, by rfl⟩
  intro n t hn
  rw [parse_heading_line]
  have hhead : (List.replicate n '*' ++ ' ' :: t).head? = some '*' := by
    rcases n with _ | m
    · omega
    · simp [List.replicate_succ]
  have htake : ((List.replicate n '*' ++ ' ' :: t).takeWhile
      (fun c => c = '*')).length = n := by
    induction n with
    | zero => simp [List.takeWhile_cons]
    | succ m ih =>
      rcases Nat.eq_or_lt_of_le (Nat.zero_le m) with hm | hm
      · simp [List.replicate_succ, List.takeWhile_cons, ih]
      · simp [List.replicate_succ, List.takeWhile_cons, ih]
  simp only [hhead, htake]
  simp [hn]

/-- Witness for C9: the block-level parser rejects the seven-star line
through the general bound. -/
theorem org_parsers_disagree_on_stars_witness :
    parse_heading_line (List.replicate 7 '*' ++ ' ' :: toChars "Title") = none :=
  org_parsers_disagree_on_stars.1 7 (toChars "Title") (by decide)

/-- Leading stars of a heading line: the `take_while` count stops at the
following space. -/
lemma takeWhile_star_replicate (n : Nat) (t : Str) :
    ((List.replicate n '*' ++ ' ' :: t).takeWhile (fun c => c = '*')).length = n := by
  induction n with
  | zero => simp [List.takeWhile_cons]
  | succ m ih => simp [List.replicate_succ, List.takeWhile_cons, ih]

/-- Dropping the stars of a heading line leaves the space and title. -/
lemma drop_star_replicate (n : Nat) (t : Str) :
    (List.replicate n '*' ++ ' ' :: t).drop n = ' ' :: t := by
  have h := List.drop_left (List.replicate n '*') (' ' :: t)
  rwa [List.length_replicate] at h

/-- A newline-free string is a single Rust line. -/
lemma rustLinesGo_no_nl :
    ∀ (rest acc : Str), (∀ c ∈ rest, c ≠ '\n') →
      rustLinesGo acc rest =
        if acc.reverse ++ rest = [] then [] else [acc.reverse ++ rest] := by
  intro rest
  induction rest with
  | nil =>
    intro acc _
    rw [rustLinesGo]
    rcases acc with _ | ⟨c, acc'⟩
    · simp
    · simp
  | cons c rest ih =>
    intro acc hnl
    rw [rustLinesGo]
    have hc : ¬ c = '\n' := hnl c (List.mem_cons_self c rest)
    rw [if_neg hc, ih (c :: acc) (fun x hx => hnl x (List.mem_cons_of_mem _ hx))]
    simp

/-- A nonempty newline-free string yields exactly itself as its one
line. -/
lemma rustLines_no_nl {s : Str} (h1 : s ≠ []) (h2 : ∀ c ∈ s, c ≠ '\n') :
    rustLines s = [s] := by
  rw [rustLines, rustLinesGo_no_nl s [] h2]
  simp [h1]

/-- Trimming does nothing to a string with a non-whitespace head. -/
lemma trimStart_cons_not_ws {c : Char} {rest : Str}
    (h : rustIsWhitespace c = false) : trimStart (c :: rest) = c :: rest := by
  simp [trimStart, List.dropWhile_cons, h]

/-- Claim C10. For Org heading lines of the form `stars ++ " TODO title"`
or `stars ++ " DONE title"` (1–6 stars, a clean title), `OrgParser::parse`
records `todo_state` as the keyword but also leaves the keyword inside
the heading's text content; `OrgParser::render` of that result prefixes
the stored keyword again, so `render (parse line)` yields
`stars ++ " <kw> <kw> title"`, which differs from the input line —
parse-then-render is not the identity on such lines. -/
theorem org_todo_double_render (n : Nat) (kw title : Str)
    (h0 : kw = toChars "TODO" ∨ kw = toChars "DONE")
    (h1 : 1 ≤ n) (h2 : n ≤ 6)
    (h3 : rustTrim (kw ++ ' ' :: title) = kw ++ ' ' :: title)
    (h4 : ∀ c ∈ title, c ≠ '\n') :
    OrgParser.parse (List.replicate n '*' ++ ' ' :: (kw ++ ' ' :: title)) 0 =
      .ok (Block.heading n [Inline.Text (kw ++ ' ' :: title)],
        { heading_level := some n, id := none,
          todo_state := some kw, properties := [] }) ∧
    OrgParser.render (Block.heading n [Inline.Text (kw ++ ' ' :: title)])
        { heading_level := some n, id := none,
          todo_state := some kw, properties := [] } =
      List.replicate n '*' ++ ' ' :: (kw ++ ' ' :: (kw ++ ' ' :: title)) ∧
    List.replicate n '*' ++ ' ' :: (kw ++ ' ' :: (kw ++ ' ' :: title)) ≠
      List.replicate n '*' ++ ' ' :: (kw ++ ' ' :: title) := by
  obtain ⟨m, rfl⟩ : ∃ m, n = m + 1 := ⟨n - 1, by omega⟩
  have hkw : ∀ c ∈ kw, c ≠ '\n' := by
    rcases h0 with rfl | rfl <;> decide
  have hline : List.replicate (m + 1) '*' ++ ' ' :: (kw ++ ' ' :: title) =
      '*' :: (List.replicate m '*' ++ ' ' :: (kw ++ ' ' :: title)) := by
    simp [List.replicate_succ]
  have hnl : ∀ c ∈ List.replicate (m + 1) '*' ++ ' ' :: (kw ++ ' ' :: title),
      c ≠ '\n' := by
    intro c hc
    rcases List.mem_append.mp hc with hm | hm
    · have := List.eq_of_mem_replicate hm
      subst this
      decide
    · rcases List.mem_cons.mp hm with rfl | hm
      · decide
      · rcases List.mem_append.mp hm with hm | hm
        · exact hkw c hm
        · rcases List.mem_cons.mp hm with rfl | hm
          · decide
          · exact h4 c hm
  have hne : List.replicate (m + 1) '*' ++ ' ' :: (kw ++ ' ' :: title) ≠ [] := by
    rw [hline]
    exact List.cons_ne_nil _ _
  have ht : trimStart (List.replicate (m + 1) '*' ++ ' ' :: (kw ++ ' ' :: title)) =
      List.replicate (m + 1) '*' ++ ' ' :: (kw ++ ' ' :: title) := by
    rw [hline]
    exact trimStart_cons_not_ws (by decide)
  have hhl : parse_heading_line
      (List.replicate (m + 1) '*' ++ ' ' :: (kw ++ ' ' :: title)) =
      some (m + 1, kw ++ ' ' :: title) := by
    rw [parse_heading_line]
    have hhead : (List.replicate (m + 1) '*' ++ ' ' ::
        (kw ++ ' ' :: title)).head? = some '*' := by
      rw [hline]
      rfl
    rw [if_neg (by simp [hhead])]
    simp only [takeWhile_star_replicate, drop_star_replicate]
    rw [if_neg (by simp; omega)]
    rw [h3]
  have hrender : OrgParser.render (Block.heading (m + 1) [Inline.Text (kw ++ ' ' :: title)])
      { heading_level := some (m + 1), id := none,
        todo_state := some kw, properties := [] } =
      List.replicate (m + 1) '*' ++ ' ' :: (kw ++ ' ' :: (kw ++ ' ' :: title)) := by
    rw [OrgParser.render.eq_def]
    simp only [Block.heading, render_inline_content, joinWith,
      List.filterMap_cons, List.filterMap_nil]
    simp [List.replicate_succ, toChars]
  have hneq : List.replicate (m + 1) '*' ++ ' ' :: (kw ++ ' ' :: (kw ++ ' ' :: title)) ≠
      List.replicate (m + 1) '*' ++ ' ' :: (kw ++ ' ' :: title) := by
    intro heq
    have hlen := congrArg List.length heq
    rcases h0 with rfl | rfl <;> simp [toChars] at hlen <;> omega
  rcases h0 with rfl | rfl
  · have hpre : (toChars "TODO ").isPrefixOf (toChars "TODO" ++ ' ' :: title) = true := by
      show (toChars "TODO ").isPrefixOf (toChars "TODO " ++ title) = true
      exact List.isPrefixOf_iff_prefix.mpr (List.prefix_append _ _)
    refine ⟨?_, hrender, hneq⟩
    rw [OrgParser.parse.eq_def, rustLines_no_nl hne hnl]
    simp only [List.isEmpty_cons, Bool.false_eq_true, if_false, List.headD_cons,
      ht, hhl, hpre, if_true, BlockMetadata.default]
  · have hpreT : (toChars "TODO ").isPrefixOf (toChars "DONE" ++ ' ' :: title) = false :=
      rfl
    have hpreD : (toChars "DONE ").isPrefixOf (toChars "DONE" ++ ' ' :: title) = true := by
      show (toChars "DONE ").isPrefixOf (toChars "DONE " ++ title) = true
      exact List.isPrefixOf_iff_prefix.mpr (List.prefix_append _ _)
    refine ⟨?_, hrender, hneq⟩
    rw [OrgParser.parse.eq_def, rustLines_no_nl hne hnl]
    simp only [List.isEmpty_cons, Bool.false_eq_true, if_false, List.headD_cons,
      ht, hhl, hpreT, hpreD, if_true, BlockMetadata.default]

/-- Witness for C10: `* TODO Task` parses with `todo_state = TODO` and
renders back as `* TODO TODO Task`, and `* DONE Task` parses with
`todo_state = DONE` and renders back as `* DONE DONE Task`. -/
theorem org_todo_double_render_witness :
    (OrgParser.parse (List.replicate 1 '*' ++ ' ' ::
        (toChars "TODO" ++ ' ' :: toChars "Task")) 0 =
      .ok (Block.heading 1 [Inline.Text (toChars "TODO" ++ ' ' :: toChars "Task")],
        { heading_level := some 1, id := none,
          todo_state := some (toChars "TODO"), properties := [] }) ∧
    OrgParser.render
        (Block.heading 1 [Inline.Text (toChars "TODO" ++ ' ' :: toChars "Task")])
        { heading_level := some 1, id := none,
          todo_state := some (toChars "TODO"), properties := [] } =
      List.replicate 1 '*' ++ ' ' ::
        (toChars "TODO" ++ ' ' :: (toChars "TODO" ++ ' ' :: toChars "Task")) ∧
    List.replicate 1 '*' ++ ' ' ::
        (toChars "TODO" ++ ' ' :: (toChars "TODO" ++ ' ' :: toChars "Task")) ≠
      List.replicate 1 '*' ++ ' ' :: (toChars "TODO" ++ ' ' :: toChars "Task")) ∧
    (OrgParser.parse (List.replicate 1 '*' ++ ' ' ::
        (toChars "DONE" ++ ' ' :: toChars "Task")) 0 =
      .ok (Block.heading 1 [Inline.Text (toChars "DONE" ++ ' ' :: toChars "Task")],
        { heading_level := some 1, id := none,
          todo_state := some (toChars "DONE"), properties := [] }) ∧
    OrgParser.render
        (Block.heading 1 [Inline.Text (toChars "DONE" ++ ' ' :: toChars "Task")])
        { heading_level := some 1, id := none,
          todo_state := some (toChars "DONE"), properties := [] } =
      List.replicate 1 '*' ++ ' ' ::
        (toChars "DONE" ++ ' ' :: (toChars "DONE" ++ ' ' :: toChars "Task")) ∧
    List.replicate 1 '*' ++ ' ' ::
        (toChars "DONE" ++ ' ' :: (toChars "DONE" ++ ' ' :: toChars "Task")) ≠
      List.replicate 1 '*' ++ ' ' :: (toChars "DONE" ++ ' ' :: toChars "Task")) :=
  ⟨org_todo_double_render 1 (toChars "TODO") (toChars "Task") (Or.inl rfl)
      (by decide) (by decide) (by decide) (by decide),
   org_todo_double_render 1 (toChars "DONE") (toChars "Task") (Or.inr rfl)
      (by decide) (by decide) (by decide) (by decide)⟩

/-! ## Block-level Markdown parser (`src/parser/parsers/markdown.rs`)
and the whole-document header parser (`src/formats/markdown.rs`) -/

/-- `MarkdownParser::get_heading_level`: 1–6 leading `#` on the trimmed
line followed directly by a space (the Rust byte-range check
`get(n..n+1) == Some(" ")` holds exactly when the character after the
hashes is a space). -/
def get_heading_level (line : Str) : Option Nat :=
  let trimmed := trimStart line
  if trimmed.head? ≠ some '#' then none
  else
    let hash_count := (trimmed.takeWhile (fun c => c = '#')).length
    if 0 < hash_count ∧ hash_count < 7 ∧ (trimmed.drop hash_count).head? = some ' '
    then some hash_count
    else none

/-- The horizontal-rule test of `MarkdownParser::parse` on a single
trimmed line. -/
def isHrLine (line : Str) : Bool :=
  ((toChars "---").isPrefixOf line || (toChars "***").isPrefixOf line ||
    (toChars "___").isPrefixOf line) &&
  line.all (fun c => c = '-' || c = '*' || c = '_' || rustIsWhitespace c)

/-- `MarkdownParser::parse` (`src/parser/parsers/markdown.rs`): heading
on the first line, else single-line horizontal rule, else a paragraph
holding the raw text (`parse_inline_content` wraps it in one `Text`). -/
def MarkdownParser.parse (raw_text : Str) (_line_offset : Nat) :
    Except ParseError (Block × BlockMetadata) :=
  let metadata := BlockMetadata.default
  let lines := rustLines raw_text
  match lines.head?.bind (fun fl => (get_heading_level fl).map (fun lv => (fl, lv))) with
  | some (first_line, level) =>
    let metadata := { metadata with heading_level := some level }
    let heading_text := rustTrim (first_line.dropWhile (fun c => c = '#'))
    .ok (Block.heading level [Inline.Text heading_text], metadata)
  | none =>
    if lines.length = 1 && isHrLine (rustTrim (lines.headD [])) then
      .ok (Block.horizontalRule, metadata)
    else
      .ok (Block.paragraph [Inline.Text raw_text], metadata)

/-- `parse_markdown_header` (`src/formats/markdown.rs`): count all
leading `#` of the trimmed line (the `u8` accumulator wraps, modelled by
`% 256`), require a following space, and emit a heading of that level
with the trimmed remainder as text. -/
def parse_markdown_header (line : Str) : Option Block :=
  let trimmed := trimStart line
  let count := (trimmed.takeWhile (fun c => c = '#')).length
  let level := count % 256
  let rest := trimmed.drop count
  if level = 0 then none
  else
    match rest with
    | ' ' :: content => some (Block.heading level [Inline.Text (rustTrim content)])
    | _ => none

/-- Generalization of the star-counting lemmas to any marker character:
`take_while` over the replicated marker stops at the first other
character. -/
lemma takeWhile_char_replicate {c d : Char} (hne : ¬ d = c)
    (n : Nat) (t : Str) :
    ((List.replicate n c ++ d :: t).takeWhile (fun x => x = c)).length = n := by
  induction n with
  | zero => simp [List.takeWhile_cons, hne]
  | succ m ih => simp [List.replicate_succ, List.takeWhile_cons, ih, hne]

/-- Dropping the replicated marker prefix leaves the remainder. -/
lemma drop_char_replicate (c : Char) (n : Nat) (t : Str) :
    (List.replicate n c ++ t).drop n = t := by
  have h := List.drop_left (List.replicate n c) t
  rwa [List.length_replicate] at h

/-- `drop_while` over the replicated marker removes exactly it. -/
lemma dropWhile_char_replicate {c d : Char} (hne : ¬ d = c)
    (n : Nat) (t : Str) :
    (List.replicate n c ++ d :: t).dropWhile (fun x => x = c) = d :: t := by
  induction n with
  | zero => simp [List.dropWhile_cons, hne]
  | succ m ih => simp [List.replicate_succ, List.dropWhile_cons, ih, hne]

/-- Claim C5 (amended). For `1 ≤ n ≤ 6`, both `MarkdownParser::parse`
and `parse_markdown_header` turn `"#" * n ++ " X"` into a heading of
level `n` with text `X` (the former also setting
`metadata.heading_level`).  For `n = 0` and `n ≥ 7` the block-level
`MarkdownParser::parse` indeed never yields a heading and falls through
to a paragraph — but the whole-document `parse_markdown_header` accepts
any `n ≥ 1` (up to the `u8` range) and yields a heading whose level is
the unbounded hash count, so there the line does not fall through to a
paragraph. -/
theorem markdown_heading_levels (n : Nat) :
    (1 ≤ n → n ≤ 6 →
      MarkdownParser.parse (List.replicate n '#' ++ toChars " X") 0 =
        .ok (Block.heading n [Inline.Text (toChars "X")],
          { heading_level := some n, id := none, todo_state := none,
            properties := [] }) ∧
      parse_markdown_header (List.replicate n '#' ++ toChars " X") =
        some (Block.heading n [Inline.Text (toChars "X")])) ∧
    (n = 0 ∨ 7 ≤ n →
      MarkdownParser.parse (List.replicate n '#' ++ toChars " X") 0 =
        .ok (Block.paragraph [Inline.Text (List.replicate n '#' ++ toChars " X")],
          BlockMetadata.default)) ∧
    (7 ≤ n → n ≤ 255 →
      parse_markdown_header (List.replicate n '#' ++ toChars " X") =
        some (Block.heading n [Inline.Text (toChars "X")])) := by
  have hx : toChars " X" = ' ' :: toChars "X" := rfl
  have hnl : ∀ c ∈ List.replicate n '#' ++ toChars " X", c ≠ '\n' := by
    intro c hc
    rcases List.mem_append.mp hc with hm | hm
    · have := List.eq_of_mem_replicate hm
      subst this
      decide
    · fin_cases hm <;> decide
  have htake : ((List.replicate n '#' ++ toChars " X").takeWhile
      (fun x => x = '#')).length = n := by
    rw [hx]
    exact takeWhile_char_replicate (by decide) n _
  have hdropW : (List.replicate n '#' ++ toChars " X").dropWhile
      (fun x => x = '#') = ' ' :: toChars "X" := by
    rw [hx]
    exact dropWhile_char_replicate (by decide) n _
  have hdrop : (List.replicate n '#' ++ toChars " X").drop n = ' ' :: toChars "X" := by
    rw [hx]
    exact drop_char_replicate '#' n _
  refine ⟨?_, ?_, ?_⟩
  · intro hge hle
    obtain ⟨m, rfl⟩ : ∃ m, n = m + 1 := ⟨n - 1, by omega⟩
    have hcons : List.replicate (m + 1) '#' ++ toChars " X" =
        '#' :: (List.replicate m '#' ++ toChars " X") := by
      simp [List.replicate_succ]
    have hne : List.replicate (m + 1) '#' ++ toChars " X" ≠ [] := by
      rw [hcons]
      exact List.cons_ne_nil _ _
    have ht : trimStart (List.replicate (m + 1) '#' ++ toChars " X") =
        List.replicate (m + 1) '#' ++ toChars " X" := by
      rw [hcons]
      exact trimStart_cons_not_ws (by decide)
    have hlev : get_heading_level (List.replicate (m + 1) '#' ++ toChars " X") =
        some (m + 1) := by
      rw [get_heading_level]
      simp only [ht, htake, hdrop]
      rw [if_neg (by rw [hcons]; simp)]
      rw [if_pos ⟨by omega, by omega, rfl⟩]
    constructor
    · rw [MarkdownParser.parse.eq_def, rustLines_no_nl hne hnl]
      simp only [List.head?_cons, Option.some_bind, hlev, Option.map_some',
        hdropW, BlockMetadata.default]
      rfl
    · rw [parse_markdown_header]
      simp only [ht, htake, hdrop]
      rw [if_neg (by omega)]
      have : (m + 1) % 256 = m + 1 := Nat.mod_eq_of_lt (by omega)
      rw [this]
      rfl
  · intro hcase
    have hne : List.replicate n '#' ++ toChars " X" ≠ [] := by
      intro hcontra
      have := congrArg List.length hcontra
      simp [toChars] at this
    have hlevnone : get_heading_level (List.replicate n '#' ++ toChars " X") =
        none := by
      rcases hcase with rfl | hge7
      · rfl
      · obtain ⟨m, rfl⟩ : ∃ m, n = m + 1 := ⟨n - 1, by omega⟩
        have hcons : List.replicate (m + 1) '#' ++ toChars " X" =
            '#' :: (List.replicate m '#' ++ toChars " X") := by
          simp [List.replicate_succ]
        have ht : trimStart (List.replicate (m + 1) '#' ++ toChars " X") =
            List.replicate (m + 1) '#' ++ toChars " X" := by
          rw [hcons]
          exact trimStart_cons_not_ws (by decide)
        rw [get_heading_level]
        simp only [ht, htake]
        rw [if_neg (by rw [hcons]; simp)]
        rw [if_neg (by omega)]
    have hhr : isHrLine (rustTrim (List.replicate n '#' ++ toChars " X")) = false := by
      rcases hcase with rfl | hge7
      · decide
      · obtain ⟨m, rfl⟩ : ∃ m, n = m + 1 := ⟨n - 1, by omega⟩
        have hcons : List.replicate (m + 1) '#' ++ toChars " X" =
            '#' :: (List.replicate m '#' ++ toChars " X") := by
          simp [List.replicate_succ]
        have htrim : rustTrim (List.replicate (m + 1) '#' ++ toChars " X") =
            List.replicate (m + 1) '#' ++ toChars " X" := by
          rw [rustTrim]
          rw [hcons, trimStart_cons_not_ws (by decide), ← hcons]
          have hsplit : List.replicate (m + 1) '#' ++ toChars " X" =
              (List.replicate (m + 1) '#' ++ [' ']) ++ ['X'] := by
            simp [hx, toChars]
          rw [hsplit, trimEnd, List.reverse_append]
          simp [List.dropWhile_cons, rustIsWhitespace, toChars]
        rw [htrim, hcons, isHrLine]
        simp [List.isPrefixOf]
    rw [MarkdownParser.parse.eq_def, rustLines_no_nl hne hnl]
    simp only [List.head?_cons, Option.some_bind, hlevnone, Option.map_none',
      List.length_cons, List.length_nil, List.headD_cons, hhr]
    rfl
  · intro hge7 hle255
    obtain ⟨m, rfl⟩ : ∃ m, n = m + 1 := ⟨n - 1, by omega⟩
    have hcons : List.replicate (m + 1) '#' ++ toChars " X" =
        '#' :: (List.replicate m '#' ++ toChars " X") := by
      simp [List.replicate_succ]
    have ht : trimStart (List.replicate (m + 1) '#' ++ toChars " X") =
        List.replicate (m + 1) '#' ++ toChars " X" := by
      rw [hcons]
      exact trimStart_cons_not_ws (by decide)
    rw [parse_markdown_header]
    simp only [ht, htake, hdrop]
    have hmod : (m + 1) % 256 = m + 1 := Nat.mod_eq_of_lt (by omega)
    rw [hmod]
    rw [if_neg (by omega)]
    rfl

/-- Witness for C5: level 2 parses as a heading in both functions, the
seven-hash line is a paragraph for the block parser yet a level-7
heading for the document header parser. -/
theorem markdown_heading_levels_witness :
    MarkdownParser.parse (List.replicate 2 '#' ++ toChars " X") 0 =
      .ok (Block.heading 2 [Inline.Text (toChars "X")],
        { heading_level := some 2, id := none, todo_state := none,
          properties := [] }) ∧
    MarkdownParser.parse (List.replicate 7 '#' ++ toChars " X") 0 =
      .ok (Block.paragraph [Inline.Text (List.replicate 7 '#' ++ toChars " X")],
        BlockMetadata.default) ∧
    parse_markdown_header (List.replicate 7 '#' ++ toChars " X") =
      some (Block.heading 7 [Inline.Text (toChars "X")]) :=
  ⟨((markdown_heading_levels 2).1 (by decide) (by decide)).1,
   (markdown_heading_levels 7).2.1 (Or.inr (by decide)),
   (markdown_heading_levels 7).2.2 (by decide) (by decide)⟩

/-- Counterexample to C5 as stated: on the seven-hash line the
whole-document Markdown header parser does yield a heading (of level 7)
instead of letting the line fall through to a paragraph. -/
theorem markdown_heading_levels_counterexample :
    parse_markdown_header (toChars "####### X") =
      some (Block.heading 7 [Inline.Text (toChars "X")]) := rfl

/-! ## Markdown inline tokenizer (`parse_inlines` and helpers in
`src/formats/markdown.rs`) -/

/-- `delimiter_matches`: every character of `delim` matches the next
character of the stream in turn (a prefix test, by iteration over the
delimiter). -/
def delimiterMatches : Str → Str → Bool
  | _, [] => true
  | [], _ :: _ => false
  | c :: cs, d :: ds => if c = d then delimiterMatches cs ds else false

/-- `parse_until`: scan into a buffer until the delimiter matches at the
current position; on a match the delimiter itself is consumed.  Returns
the buffer and the remaining stream. -/
def parseUntil : Str → Str → Str × Str
  | [], _ => ([], [])
  | c :: rest, delim =>
    if delimiterMatches (c :: rest) delim then ([], (c :: rest).drop delim.length)
    else
      let r := parseUntil rest delim
      (c :: r.1, r.2)

/-- `consume_delimiter`: for each delimiter character in turn, consume
the next stream character when it matches. -/
def consumeDelimiter : Str → Str → Str
  | chars, [] => chars
  | chars, d :: ds =>
    match chars with
    | c :: rest =>
      if c = d then consumeDelimiter rest ds else consumeDelimiter (c :: rest) ds
    | [] => consumeDelimiter [] ds

/-- The characters on which the plain-text accumulation of
`parse_inlines` stops. -/
def specialChar (c : Char) : Bool :=
  c = '*' || c = '`' || c = '[' || c = '!' || c = '$' || c = '~'

lemma parseUntil_fst_length_le (l delim : Str) :
    (parseUntil l delim).1.length ≤ l.length := by
  induction l with
  | nil => simp [parseUntil]
  | cons c rest ih =>
    rw [parseUntil]
    split
    · simp
    · simpa using Nat.succ_le_succ ih

lemma parseUntil_snd_length_le (l delim : Str) :
    (parseUntil l delim).2.length ≤ l.length := by
  induction l with
  | nil => simp [parseUntil]
  | cons c rest ih =>
    rw [parseUntil]
    split
    · simpa using List.length_drop_le delim.length (c :: rest)
    · exact le_trans ih (Nat.le_succ _)

lemma consumeDelimiter_length_le (delim : Str) :
    ∀ l : Str, (consumeDelimiter l delim).length ≤ l.length := by
  induction delim with
  | nil => intro l; simp [consumeDelimiter]
  | cons d ds ih =>
    intro l
    rcases l with _ | ⟨c, rest⟩
    · show (consumeDelimiter [] ds).length ≤ List.length []
      simpa using ih []
    · show (if c = d then consumeDelimiter rest ds
        else consumeDelimiter (c :: rest) ds).length ≤ (c :: rest).length
      split
      · exact le_trans (ih rest) (Nat.le_succ _)
      · exact ih (c :: rest)

/-- `parse_inlines`, with fuel standing in for the Rust loop (every
branch strictly shortens the stream, so `length + 1` fuel suffices; the
wrapper `parseInlines` supplies it). -/
def parseInlinesF : Nat → Str → List Inline
  | 0, _ => []
  | fuel + 1, l =>
    match l with
    | [] => []
    | '*' :: rest =>
      match rest with
      | '*' :: rest2 =>
        let r := parseUntil rest2 (toChars "**")
        let r3 := consumeDelimiter r.2 (toChars "**")
        Inline.Bold (parseInlinesF fuel r.1) :: parseInlinesF fuel r3
      | _ =>
        let r := parseUntil rest (toChars "*")
        let r3 := consumeDelimiter r.2 (toChars "*")
        Inline.Italic (parseInlinesF fuel r.1) :: parseInlinesF fuel r3
    | '~' :: rest =>
      match rest with
      | '~' :: rest2 =>
        let r := parseUntil rest2 (toChars "~~")
        let r3 := consumeDelimiter r.2 (toChars "~~")
        Inline.Strikethrough (parseInlinesF fuel r.1) :: parseInlinesF fuel r3
      | _ => Inline.Text (toChars "~") :: parseInlinesF fuel rest
    | '`' :: rest =>
      let r := parseUntil rest (toChars "`")
      let r3 := consumeDelimiter r.2 (toChars "`")
      Inline.Code r.1 :: parseInlinesF fuel r3
    | '!' :: rest =>
      match rest with
      | '[' :: rest2 =>
        let r := parseUntil rest2 (toChars "]")
        let r3 := consumeDelimiter r.2 (toChars "]")
        match r3 with
        | '(' :: r4 =>
          let rs := parseUntil r4 (toChars ")")
          let r6 := consumeDelimiter rs.2 (toChars ")")
          Inline.Image (if r.1.isEmpty then none else some r.1) rs.1 ::
            parseInlinesF fuel r6
        | _ => Inline.Text (toChars "!") :: parseInlinesF fuel (r3.drop 1)
      | _ => Inline.Text (toChars "!") :: parseInlinesF fuel rest
    | '$' :: rest =>
      let r := parseUntil rest (toChars "$")
      let r3 := consumeDelimiter r.2 (toChars "$")
      Inline.Math r.1 :: parseInlinesF fuel r3
    | '[' :: rest =>
      match rest with
      | '[' :: rest2 =>
        let r := parseUntil rest2 (toChars "]]")
        let r3 := consumeDelimiter r.2 (toChars "]]")
        Inline.Link [Inline.Text r.1] r.1 :: parseInlinesF fuel r3
      | _ =>
        let r := parseUntil rest (toChars "]")
        let r3 := consumeDelimiter r.2 (toChars "]")
        match r3 with
        | '(' :: r4 =>
          let rt := parseUntil r4 (toChars ")")
          let r6 := consumeDelimiter rt.2 (toChars ")")
          Inline.Link (parseInlinesF fuel r.1) rt.1 :: parseInlinesF fuel r6
        | _ => Inline.Text ('[' :: r.1 ++ [']']) :: parseInlinesF fuel r3
    | c :: rest =>
      Inline.Text (c :: rest.takeWhile (fun ch => ¬ specialChar ch)) ::
        parseInlinesF fuel (rest.dropWhile (fun ch => ¬ specialChar ch))

/-- `parse_inlines` (`src/formats/markdown.rs`). -/
def parseInlines (l : Str) : List Inline := parseInlinesF (l.length + 1) l

lemma parseInlinesF_nil : ∀ f, parseInlinesF f [] = [] := by
  intro f
  cases f <;> rfl

/-- The fuel argument is irrelevant once it exceeds the stream length:
every branch consumes at least one character. -/
lemma parseInlinesF_congr :
    ∀ (f1 : Nat) (l : Str), l.length < f1 → ∀ (f2 : Nat), l.length < f2 →
      parseInlinesF f1 l = parseInlinesF f2 l := by
  intro f1 l
  induction f1, l using parseInlinesF.induct with
  | case1 x =>
    intro hl1
    exact absurd hl1 (Nat.not_lt_zero _)
  | case2 fuel =>
    intro _ f2 _
    rw [parseInlinesF_nil, parseInlinesF_nil]
  | case3 fuel rest2 r r3 ihA ihB =>
    intro hl1 f2 hl2
    simp only [List.length_cons] at hl1 hl2
    obtain ⟨g2, rfl⟩ : ∃ g2, f2 = g2 + 1 := ⟨f2 - 1, by omega⟩
    simp only [r, r3] at ihA ihB
    have ha : (parseUntil rest2 (toChars "**")).1.length ≤ rest2.length :=
      parseUntil_fst_length_le _ _
    have hb : (consumeDelimiter (parseUntil rest2 (toChars "**")).2
        (toChars "**")).length ≤ rest2.length :=
      le_trans (consumeDelimiter_length_le _ _) (parseUntil_snd_length_le _ _)
    simp only [parseInlinesF]
    rw [ihA (by omega) g2 (by omega), ihB (by omega) g2 (by omega)]
  | case4 fuel rest r r3 hne ihA ihB =>
    intro hl1 f2 hl2
    simp only [List.length_cons] at hl1 hl2
    obtain ⟨g2, rfl⟩ : ∃ g2, f2 = g2 + 1 := ⟨f2 - 1, by omega⟩
    simp only [r, r3] at ihA ihB
    have ha : (parseUntil rest (toChars "*")).1.length ≤ rest.length :=
      parseUntil_fst_length_le _ _
    have hb : (consumeDelimiter (parseUntil rest (toChars "*")).2
        (toChars "*")).length ≤ rest.length :=
      le_trans (consumeDelimiter_length_le _ _) (parseUntil_snd_length_le _ _)
    simp only [parseInlinesF, hne]
    rw [ihA (by omega) g2 (by omega), ihB (by omega) g2 (by omega)]
  | case5 fuel rest2 r r3 ihA ihB =>
    intro hl1 f2 hl2
    simp only [List.length_cons] at hl1 hl2
    obtain ⟨g2, rfl⟩ : ∃ g2, f2 = g2 + 1 := ⟨f2 - 1, by omega⟩
    simp only [r, r3] at ihA ihB
    have ha : (parseUntil rest2 (toChars "~~")).1.length ≤ rest2.length :=
      parseUntil_fst_length_le _ _
    have hb : (consumeDelimiter (parseUntil rest2 (toChars "~~")).2
        (toChars "~~")).length ≤ rest2.length :=
      le_trans (consumeDelimiter_length_le _ _) (parseUntil_snd_length_le _ _)
    simp only [parseInlinesF]
    rw [ihA (by omega) g2 (by omega), ihB (by omega) g2 (by omega)]
  | case6 fuel rest hne ih =>
    intro hl1 f2 hl2
    simp only [List.length_cons] at hl1 hl2
    obtain ⟨g2, rfl⟩ : ∃ g2, f2 = g2 + 1 := ⟨f2 - 1, by omega⟩
    simp only [parseInlinesF, hne]
    rw [ih (by omega) g2 (by omega)]
  | case7 fuel rest r r3 ih =>
    intro hl1 f2 hl2
    simp only [List.length_cons] at hl1 hl2
    obtain ⟨g2, rfl⟩ : ∃ g2, f2 = g2 + 1 := ⟨f2 - 1, by omega⟩
    simp only [r, r3] at ih
    have hb : (consumeDelimiter (parseUntil rest (toChars "`")).2
        (toChars "`")).length ≤ rest.length :=
      le_trans (consumeDelimiter_length_le _ _) (parseUntil_snd_length_le _ _)
    simp only [parseInlinesF]
    rw [ih (by omega) g2 (by omega)]
  | case8 fuel rest2 r r3 r4 heq rs r6 ih =>
    intro hl1 f2 hl2
    simp only [List.length_cons] at hl1 hl2
    obtain ⟨g2, rfl⟩ : ∃ g2, f2 = g2 + 1 := ⟨f2 - 1, by omega⟩
    simp only [r, r3] at heq
    simp only [r, r3, rs, r6, heq] at ih
    have hc : (consumeDelimiter (parseUntil rest2 (toChars "]")).2
        (toChars "]")).length ≤ rest2.length :=
      le_trans (consumeDelimiter_length_le _ _) (parseUntil_snd_length_le _ _)
    rw [heq] at hc
    simp only [List.length_cons] at hc
    have hd : (consumeDelimiter (parseUntil r4 (toChars ")")).2
        (toChars ")")).length ≤ r4.length :=
      le_trans (consumeDelimiter_length_le _ _) (parseUntil_snd_length_le _ _)
    simp only [parseInlinesF, heq]
    rw [ih (by omega) g2 (by omega)]
  | case9 fuel rest2 r r3 hne ih =>
    intro hl1 f2 hl2
    simp only [List.length_cons] at hl1 hl2
    obtain ⟨g2, rfl⟩ : ∃ g2, f2 = g2 + 1 := ⟨f2 - 1, by omega⟩
    simp only [r, r3] at hne ih
    have hc : (consumeDelimiter (parseUntil rest2 (toChars "]")).2
        (toChars "]")).length ≤ rest2.length :=
      le_trans (consumeDelimiter_length_le _ _) (parseUntil_snd_length_le _ _)
    have hd : (List.drop 1 (consumeDelimiter (parseUntil rest2 (toChars "]")).2
        (toChars "]"))).length ≤ (consumeDelimiter (parseUntil rest2 (toChars "]")).2
        (toChars "]")).length := by
      rw [List.length_drop]
      omega
    simp only [parseInlinesF, hne]
    rw [ih (by omega) g2 (by omega)]
  | case10 fuel rest hne ih =>
    intro hl1 f2 hl2
    simp only [List.length_cons] at hl1 hl2
    obtain ⟨g2, rfl⟩ : ∃ g2, f2 = g2 + 1 := ⟨f2 - 1, by omega⟩
    simp only [parseInlinesF, hne]
    rw [ih (by omega) g2 (by omega)]
  | case11 fuel rest r r3 ih =>
    intro hl1 f2 hl2
    simp only [List.length_cons] at hl1 hl2
    obtain ⟨g2, rfl⟩ : ∃ g2, f2 = g2 + 1 := ⟨f2 - 1, by omega⟩
    simp only [r, r3] at ih
    have hb : (consumeDelimiter (parseUntil rest (toChars "$")).2
        (toChars "$")).length ≤ rest.length :=
      le_trans (consumeDelimiter_length_le _ _) (parseUntil_snd_length_le _ _)
    simp only [parseInlinesF]
    rw [ih (by omega) g2 (by omega)]
  | case12 fuel rest2 r r3 ih =>
    intro hl1 f2 hl2
    simp only [List.length_cons] at hl1 hl2
    obtain ⟨g2, rfl⟩ : ∃ g2, f2 = g2 + 1 := ⟨f2 - 1, by omega⟩
    simp only [r, r3] at ih
    have hb : (consumeDelimiter (parseUntil rest2 (toChars "]]")).2
        (toChars "]]")).length ≤ rest2.length :=
      le_trans (consumeDelimiter_length_le _ _) (parseUntil_snd_length_le _ _)
    simp only [parseInlinesF]
    rw [ih (by omega) g2 (by omega)]
  | case13 fuel rest r r3 r4 heq rt r6 hne ihA ihB =>
    intro hl1 f2 hl2
    simp only [List.length_cons] at hl1 hl2
    obtain ⟨g2, rfl⟩ : ∃ g2, f2 = g2 + 1 := ⟨f2 - 1, by omega⟩
    simp only [r, r3] at heq
    simp only [r, r3, rt, r6, heq] at ihA ihB
    have ha : (parseUntil rest (toChars "]")).1.length ≤ rest.length :=
      parseUntil_fst_length_le _ _
    have hc : (consumeDelimiter (parseUntil rest (toChars "]")).2
        (toChars "]")).length ≤ rest.length :=
      le_trans (consumeDelimiter_length_le _ _) (parseUntil_snd_length_le _ _)
    rw [heq] at hc
    simp only [List.length_cons] at hc
    have hd : (consumeDelimiter (parseUntil r4 (toChars ")")).2
        (toChars ")")).length ≤ r4.length :=
      le_trans (consumeDelimiter_length_le _ _) (parseUntil_snd_length_le _ _)
    simp only [parseInlinesF, hne, heq]
    rw [ihA (by omega) g2 (by omega), ihB (by omega) g2 (by omega)]
  | case14 fuel rest r r3 hne1 hne2 ih =>
    intro hl1 f2 hl2
    simp only [List.length_cons] at hl1 hl2
    obtain ⟨g2, rfl⟩ : ∃ g2, f2 = g2 + 1 := ⟨f2 - 1, by omega⟩
    simp only [r, r3] at hne2 ih
    have hc : (consumeDelimiter (parseUntil rest (toChars "]")).2
        (toChars "]")).length ≤ rest.length :=
      le_trans (consumeDelimiter_length_le _ _) (parseUntil_snd_length_le _ _)
    simp only [parseInlinesF, hne1, hne2]
    rw [ih (by omega) g2 (by omega)]
  | case15 fuel c rest hc1 hc2 hc3 hc4 hc5 hc6 ih =>
    intro hl1 f2 hl2
    simp only [List.length_cons] at hl1 hl2
    obtain ⟨g2, rfl⟩ : ∃ g2, f2 = g2 + 1 := ⟨f2 - 1, by omega⟩
    have hd : (rest.dropWhile (fun ch => ¬ specialChar ch)).length ≤ rest.length :=
      (List.dropWhile_sublist _).length_le
    simp only [parseInlinesF, hc1, hc2, hc3, hc4, hc5, hc6]
    rw [ih (by omega) g2 (by omega)]

lemma consumeDelimiter_nil_left : ∀ delim : Str, consumeDelimiter [] delim = [] := by
  intro delim
  induction delim with
  | nil => rfl
  | cons d ds ih =>
    rw [consumeDelimiter.eq_def]
    exact ih

/-- When the delimiter's first character never occurs, `parse_until`
consumes the whole stream into the buffer and leaves nothing. -/
lemma parseUntil_not_mem {d0 : Char} {ds l : Str} (h : d0 ∉ l) :
    parseUntil l (d0 :: ds) = (l, []) := by
  induction l with
  | nil => rfl
  | cons c rest ih =>
    have hc : ¬ c = d0 := fun hcc => h (hcc ▸ List.mem_cons_self c rest)
    have hdm : delimiterMatches (c :: rest) (d0 :: ds) = false := by
      rw [delimiterMatches.eq_def]
      simp [hc]
    rw [parseUntil, if_neg (by simp [hdm]),
      ih (fun hm => h (List.mem_cons_of_mem _ hm))]

/-- One-step evaluation of the bold branch (symbolic fuel, so inner
calls stay folded). -/
lemma parseInlinesF_bold_step (fuel : Nat) (rest2 : Str) :
    parseInlinesF (fuel + 1) ('*' :: '*' :: rest2) =
      Inline.Bold (parseInlinesF fuel (parseUntil rest2 (toChars "**")).1) ::
        parseInlinesF fuel
          (consumeDelimiter (parseUntil rest2 (toChars "**")).2 (toChars "**")) := by
  rw [parseInlinesF]

/-- One-step evaluation of the italic branch. -/
lemma parseInlinesF_italic_step (fuel : Nat) (rest : Str)
    (hne : ∀ rest2 : List Char, rest = '*' :: rest2 → False) :
    parseInlinesF (fuel + 1) ('*' :: rest) =
      Inline.Italic (parseInlinesF fuel (parseUntil rest (toChars "*")).1) ::
        parseInlinesF fuel
          (consumeDelimiter (parseUntil rest (toChars "*")).2 (toChars "*")) := by
  simp only [parseInlinesF, hne]

/-- One-step evaluation of the strikethrough branch. -/
lemma parseInlinesF_strike_step (fuel : Nat) (rest2 : Str) :
    parseInlinesF (fuel + 1) ('~' :: '~' :: rest2) =
      Inline.Strikethrough (parseInlinesF fuel (parseUntil rest2 (toChars "~~")).1) ::
        parseInlinesF fuel
          (consumeDelimiter (parseUntil rest2 (toChars "~~")).2 (toChars "~~")) := by
  rw [parseInlinesF]

/-- One-step evaluation of the unpaired-tilde branch. -/
lemma parseInlinesF_tilde_step (fuel : Nat) (rest : Str)
    (hne : ∀ rest2 : List Char, rest = '~' :: rest2 → False) :
    parseInlinesF (fuel + 1) ('~' :: rest) =
      Inline.Text (toChars "~") :: parseInlinesF fuel rest := by
  simp only [parseInlinesF, hne]

/-- One-step evaluation of the code-span branch. -/
lemma parseInlinesF_code_step (fuel : Nat) (rest : Str) :
    parseInlinesF (fuel + 1) ('`' :: rest) =
      Inline.Code (parseUntil rest (toChars "`")).1 ::
        parseInlinesF fuel
          (consumeDelimiter (parseUntil rest (toChars "`")).2 (toChars "`")) := by
  rw [parseInlinesF]

/-- One-step evaluation of the math-span branch. -/
lemma parseInlinesF_math_step (fuel : Nat) (rest : Str) :
    parseInlinesF (fuel + 1) ('$' :: rest) =
      Inline.Math (parseUntil rest (toChars "$")).1 ::
        parseInlinesF fuel
          (consumeDelimiter (parseUntil rest (toChars "$")).2 (toChars "$")) := by
  rw [parseInlinesF]

/-- One-step evaluation of a `!` not followed by `[`. -/
lemma parseInlinesF_bang_step (fuel : Nat) (rest : Str)
    (hne : ∀ rest2 : List Char, rest = '[' :: rest2 → False) :
    parseInlinesF (fuel + 1) ('!' :: rest) =
      Inline.Text (toChars "!") :: parseInlinesF fuel rest := by
  simp only [parseInlinesF, hne]

/-- One-step evaluation of `![` whose scanned remainder is not followed
by `(`. -/
lemma parseInlinesF_image_noparen_step (fuel : Nat) (rest2 : Str)
    (hne : ∀ r4 : List Char,
      consumeDelimiter (parseUntil rest2 (toChars "]")).2 (toChars "]") =
        '(' :: r4 → False) :
    parseInlinesF (fuel + 1) ('!' :: '[' :: rest2) =
      Inline.Text (toChars "!") ::
        parseInlinesF fuel
          (List.drop 1
            (consumeDelimiter (parseUntil rest2 (toChars "]")).2 (toChars "]"))) := by
  simp only [parseInlinesF, hne]

/-- One-step evaluation of `[` (not a wiki link) whose scanned text is
not followed by `(`. -/
lemma parseInlinesF_link_noparen_step (fuel : Nat) (rest : Str)
    (hne1 : ∀ rest2 : List Char, rest = '[' :: rest2 → False)
    (hne2 : ∀ r4 : List Char,
      consumeDelimiter (parseUntil rest (toChars "]")).2 (toChars "]") =
        '(' :: r4 → False) :
    parseInlinesF (fuel + 1) ('[' :: rest) =
      Inline.Text ('[' :: (parseUntil rest (toChars "]")).1 ++ [']']) ::
        parseInlinesF fuel
          (consumeDelimiter (parseUntil rest (toChars "]")).2 (toChars "]")) := by
  simp only [parseInlinesF, hne1, hne2]

/-- Claim C6 (amended). `parse_inlines` is total — modelled by a
terminating function — and an opened delimiter whose closing delimiter
never occurs in the rest of the input never causes a failure.  But only
three cases degrade to literal text: an unpaired single `~`, a `!` not
followed by `[`, and a `[` whose captured text is not followed by `(`
(which emits `[text]`, appending a `]` that was never in the input); an
unterminated `![` drops everything scanned and leaves just `!`.  For
`*`, `**`, `~~`, `` ` `` and `$` the remaining characters are wrapped in
the corresponding styled inline node (italic, bold, strikethrough, code,
math), as though the delimiter were closed at end of input — not
returned as literal text. -/
theorem parse_inlines_unterminated (rest : Str) :
    ('*' ∉ rest →
      parseInlines ('*' :: rest) = [Inline.Italic (parseInlines rest)]) ∧
    ('*' ∉ rest →
      parseInlines ('*' :: '*' :: rest) = [Inline.Bold (parseInlines rest)]) ∧
    ('~' ∉ rest →
      parseInlines ('~' :: '~' :: rest) =
        [Inline.Strikethrough (parseInlines rest)]) ∧
    (rest.head? ≠ some '~' →
      parseInlines ('~' :: rest) =
        Inline.Text (toChars "~") :: parseInlines rest) ∧
    ('`' ∉ rest → parseInlines ('`' :: rest) = [Inline.Code rest]) ∧
    ('$' ∉ rest → parseInlines ('$' :: rest) = [Inline.Math rest]) ∧
    (rest.head? ≠ some '[' →
      parseInlines ('!' :: rest) =
        Inline.Text (toChars "!") :: parseInlines rest) ∧
    (']' ∉ rest →
      parseInlines ('!' :: '[' :: rest) = [Inline.Text (toChars "!")]) ∧
    ('[' ∉ rest → ']' ∉ rest →
      parseInlines ('[' :: rest) = [Inline.Text ('[' :: rest ++ [']'])]) := by
  refine ⟨?_, ?_, ?_, ?_, ?_, ?_, ?_, ?_, ?_⟩
  · intro h
    have hne : ∀ rest2 : List Char, rest = '*' :: rest2 → False :=
      fun rest2 hr => h (hr ▸ List.mem_cons_self '*' rest2)
    rw [parseInlines, parseInlines]
    simp only [List.length_cons]
    rw [parseInlinesF_italic_step _ _ hne,
      show toChars "*" = '*' :: [] from rfl, parseUntil_not_mem h]
    simp only [consumeDelimiter_nil_left, parseInlinesF_nil]
  · intro h
    rw [parseInlines, parseInlines]
    simp only [List.length_cons]
    rw [parseInlinesF_bold_step,
      show toChars "**" = '*' :: ['*'] from rfl, parseUntil_not_mem h]
    simp only [consumeDelimiter_nil_left, parseInlinesF_nil]
    rw [parseInlinesF_congr (rest.length + 1 + 1) rest (by omega)
      (rest.length + 1) (by omega)]
  · intro h
    rw [parseInlines, parseInlines]
    simp only [List.length_cons]
    rw [parseInlinesF_strike_step,
      show toChars "~~" = '~' :: ['~'] from rfl, parseUntil_not_mem h]
    simp only [consumeDelimiter_nil_left, parseInlinesF_nil]
    rw [parseInlinesF_congr (rest.length + 1 + 1) rest (by omega)
      (rest.length + 1) (by omega)]
  · intro h
    have hne : ∀ rest2 : List Char, rest = '~' :: rest2 → False :=
      fun rest2 hr => h (by rw [hr]; rfl)
    rw [parseInlines, parseInlines]
    simp only [List.length_cons]
    rw [parseInlinesF_tilde_step _ _ hne]
  · intro h
    rw [parseInlines]
    simp only [List.length_cons]
    rw [parseInlinesF_code_step,
      show toChars "`" = '`' :: [] from rfl, parseUntil_not_mem h]
    simp only [consumeDelimiter_nil_left, parseInlinesF_nil]
  · intro h
    rw [parseInlines]
    simp only [List.length_cons]
    rw [parseInlinesF_math_step,
      show toChars "$" = '$' :: [] from rfl, parseUntil_not_mem h]
    simp only [consumeDelimiter_nil_left, parseInlinesF_nil]
  · intro h
    have hne : ∀ rest2 : List Char, rest = '[' :: rest2 → False :=
      fun rest2 hr => h (by rw [hr]; rfl)
    rw [parseInlines, parseInlines]
    simp only [List.length_cons]
    rw [parseInlinesF_bang_step _ _ hne]
  · intro h
    have hr3 : consumeDelimiter (parseUntil rest (toChars "]")).2 (toChars "]") = [] := by
      rw [show toChars "]" = ']' :: [] from rfl, parseUntil_not_mem h,
        consumeDelimiter_nil_left]
    have hne : ∀ r4 : List Char,
        consumeDelimiter (parseUntil rest (toChars "]")).2 (toChars "]") =
          '(' :: r4 → False := by
      intro r4 hcontra
      rw [hr3] at hcontra
      exact List.noConfusion hcontra
    rw [parseInlines]
    simp only [List.length_cons]
    rw [parseInlinesF_image_noparen_step _ _ hne, hr3]
    simp only [List.drop_nil, parseInlinesF_nil]
  · intro hbr h
    have hne1 : ∀ rest2 : List Char, rest = '[' :: rest2 → False :=
      fun rest2 hr => hbr (hr ▸ List.mem_cons_self '[' rest2)
    have hr3 : consumeDelimiter (parseUntil rest (toChars "]")).2 (toChars "]") = [] := by
      rw [show toChars "]" = ']' :: [] from rfl, parseUntil_not_mem h,
        consumeDelimiter_nil_left]
    have hne2 : ∀ r4 : List Char,
        consumeDelimiter (parseUntil rest (toChars "]")).2 (toChars "]") =
          '(' :: r4 → False := by
      intro r4 hcontra
      rw [hr3] at hcontra
      exact List.noConfusion hcontra
    rw [parseInlines]
    simp only [List.length_cons]
    rw [parseInlinesF_link_noparen_step _ _ hne1 hne2, hr3,
      show toChars "]" = ']' :: [] from rfl, parseUntil_not_mem h]
    simp only [parseInlinesF_nil]

/-- Witness for C6: the unterminated-italic and single-tilde cases at
concrete inputs. -/
theorem parse_inlines_unterminated_witness :
    parseInlines ('*' :: toChars "abc") =
      [Inline.Italic (parseInlines (toChars "abc"))] ∧
    parseInlines ('~' :: toChars "x") =
      Inline.Text (toChars "~") :: parseInlines (toChars "x") :=
  ⟨(parse_inlines_unterminated (toChars "abc")).1 (by decide),
   (parse_inlines_unterminated (toChars "x")).2.2.2.1 (by decide)⟩

/-- Counterexample to C6 as stated: an unterminated `*` does not degrade
to the literal delimiter plus plain text — it produces a styled
`Italic` node wrapping the rest of the input. -/
theorem parse_inlines_unterminated_counterexample :
    parseInlines (toChars "*abc") = [Inline.Italic [Inline.Text (toChars "abc")]] ∧
    parseInlines (toChars "*abc") ≠ [Inline.Text (toChars "*abc")] ∧
    parseInlines (toChars "*abc") ≠
      [Inline.Text (toChars "*"), Inline.Text (toChars "abc")] := by
  have he : parseInlines (toChars "*abc") =
      [Inline.Italic [Inline.Text (toChars "abc")]] := rfl
  refine ⟨he, ?_, ?_⟩ <;> rw [he] <;> simp

/-! ## Whole-document Markdown block parser (`parse_blocks`,
`parse_table`, `parse_list`, `parse_image` in `src/formats/markdown.rs`) -/

/-- Rust `str::ends_with` for a string pattern. -/
def endsWithStr (suf s : Str) : Bool := suf.reverse.isPrefixOf s.reverse

/-- Rust `str::strip_suffix`. -/
def stripSuffix (suf s : Str) : Option Str :=
  if suf.reverse.isPrefixOf s.reverse then some (s.take (s.length - suf.length))
  else none

/-- Rust `str::find(pattern)` for a string pattern: index of the first
occurrence. -/
def findSub : Str → Str → Option Nat
  | pat, [] => if pat.isEmpty then some 0 else none
  | pat, c :: rest =>
    if pat.isPrefixOf (c :: rest) then some 0
    else (findSub pat rest).map (· + 1)

/-- `parse_image` (`src/formats/markdown.rs`): locate `![`, the closing
`]`, the following `(` and its `)`; empty alt text becomes `none`. -/
def parse_image (line : Str) : Option (Option Str × Str) :=
  (findSub (toChars "![") line).bind fun start =>
  ((line.drop start).findIdx? (fun x => x = ']')).bind fun rel1 =>
  let end_alt := rel1 + start
  let alt := (line.drop (start + 2)).take (end_alt - (start + 2))
  ((line.drop end_alt).findIdx? (fun x => x = '(')).bind fun rel2 =>
  let paren_start := rel2 + end_alt + 1
  ((line.drop paren_start).findIdx? (fun x => x = ')')).bind fun rel3 =>
  let paren_end := rel3 + paren_start
  let src := (line.drop paren_start).take (paren_end - paren_start)
  some (if alt.isEmpty then none else some alt, src)

/-- Alignment detection for one cell of a table alignment row
(`:---` left, `---:` right, `:---:` center, else the default `Left`). -/
def alignOf (cell : Str) : Alignment :=
  let cell := rustTrim cell
  if cell.head? = some ':' then
    if cell.getLast? = some ':' then Alignment.Center else Alignment.Left
  else
    if cell.getLast? = some ':' then Alignment.Right else Alignment.Left

/-- The alignment-row test of `parse_table`: the trimmed row consists
only of `-`, `:`, `|` and whitespace. -/
def isAlignRow (l : Str) : Bool :=
  (rustTrim l).all (fun c => c = '-' || c = ':' || c = '|' || rustIsWhitespace c)

/-- Cell splitting of a table row: split at `|`, trim, inline-parse. -/
def tableCells (row : Str) : List (List Inline) :=
  (splitChar '|' row).map (fun c => parseInlines (rustTrim c))

/-- `parse_table` (`src/formats/markdown.rs`): keep the lines containing
`|`; fewer than two is not a table; the first row is the headers, an
alignment row (if the second row qualifies) is removed and decoded, the
remaining rows are data. -/
def parse_table (input : Str) : Option Block :=
  let lines := (rustLines input).filter (fun l => l.contains '|')
  if lines.length < 2 then none
  else
    let headers := tableCells (lines.headD [])
    if 2 ≤ lines.length ∧ isAlignRow (lines.getD 1 []) then
      let alignments := (splitChar '|' (lines.getD 1 [])).map alignOf
      some (Block.tableOf headers ((lines.drop 2).map tableCells)
        (some alignments) none)
    else
      some (Block.tableOf headers ((lines.drop 1).map tableCells) none none)

/-- The line test starting a list run in `parse_blocks` (a bullet marker
or a leading ASCII digit on the trimmed line). -/
def listStartLine (t : Str) : Bool :=
  (toChars "- ").isPrefixOf t || (toChars "* ").isPrefixOf t ||
  (toChars "+ ").isPrefixOf t ||
  (match t.head? with
   | some c => rustIsAsciiDigit c
   | none => false)

/-- The continuation test of the list-collection loop in `parse_blocks`
(also accepts blank lines). -/
def listContLine (l : Str) : Bool :=
  let t := trimStart l
  (toChars "- ").isPrefixOf t || (toChars "* ").isPrefixOf t ||
  (toChars "+ ").isPrefixOf t ||
  (match t.head? with
   | some c => rustIsAsciiDigit c
   | none => false) || t.isEmpty

/-- The bullet/ordinal dispatch of `parse_list_item`: marker style and
content after the marker. -/
def listItemStyle (trimmed : Str) : Option (ListStyle × Str) :=
  match stripPrefix (toChars "- ") trimmed with
  | some stripped => some (ListStyle.Unordered '-', stripped)
  | none =>
    match stripPrefix (toChars "* ") trimmed with
    | some stripped => some (ListStyle.Unordered '*', stripped)
    | none =>
      match stripPrefix (toChars "+ ") trimmed with
      | some stripped => some (ListStyle.Unordered '+', stripped)
      | none =>
        match trimmed.findIdx? (fun x => x = '.') with
        | some dot_pos =>
          if (trimmed.take dot_pos).all rustIsAsciiDigit ∧
              (trimmed.drop (dot_pos + 1)).head? = some ' ' then
            some (ListStyle.Ordered ⟨NumberingType.Decimal, NumberingStyle.Dot⟩,
              trimmed.drop (dot_pos + 2))
          else none
        | none => none

/-- The nested-line collection loop of `parse_list_item`: blank lines
are skipped (consumed, not kept), more-indented lines are kept, the
first other line stops the loop.  Returns the kept lines and the number
of consumed lines. -/
def collectNested (indent : Nat) : List Str → List Str × Nat
  | [] => ([], 0)
  | next :: rest =>
    let nt := trimStart next
    if nt.isEmpty then
      let r := collectNested indent rest
      (r.1, r.2 + 1)
    else if indent < next.length - nt.length then
      let r := collectNested indent rest
      (next :: r.1, r.2 + 1)
    else ([], 0)

/-- The `$$`-collection loop of the multi-line math branch of
`parse_blocks`. -/
def mathCollect : Str → List Str → Str × List Str
  | full, [] => (full, [])
  | full, next :: rest =>
    let nt := trimEnd next
    let full2 := if full.isEmpty then full else full ++ toChars "\n"
    match stripSuffix (toChars "$$") nt with
    | some stripped => (full2 ++ stripped, rest)
    | none => mathCollect (full2 ++ nt) rest

/-- Pop one trailing newline, as the math branch does. -/
def stripNlEnd (s : Str) : Str :=
  if s.getLast? = some '\n' then s.dropLast else s

mutual

/-- The main loop of `parse_blocks` (`src/formats/markdown.rs`) over the
document lines, with fuel for the nested `parse_blocks` recursions of
the quote and list branches (each level strictly shrinks the text, so
the wrapper's fuel suffices for every reachable input). -/
def parseBlocksLoop : Nat → List Str → List Block
  | 0, _ => []
  | _ + 1, [] => []
  | fuel + 1, line :: rest =>
    let trimmed := rustTrim line
    if trimmed.isEmpty then parseBlocksLoop fuel rest
    else
      match stripPrefix (toChars "```") trimmed with
      | some stripped =>
        let language := rustTrim stripped
        let split :=
          match rest.findIdx? (fun l => rustTrim l = toChars "```") with
          | some i => (rest.take i, rest.drop (i + 1))
          | none => (rest, ([] : List Str))
        Block.codeBlock (if language.isEmpty then none else some language)
          (joinWith (toChars "\n") split.1) :: parseBlocksLoop fuel split.2
      | none =>
        match stripPrefix (toChars "$$") trimmed with
        | some content =>
          if endsWithStr (toChars "$$") content then
            Block.mathBlock (content.take (content.length - 2)) ::
              parseBlocksLoop fuel rest
          else
            let r := mathCollect content rest
            Block.mathBlock (stripNlEnd r.1) :: parseBlocksLoop fuel r.2
        | none =>
          match parse_markdown_header trimmed with
          | some header => header :: parseBlocksLoop fuel rest
          | none =>
            if trimmed.head? = some '>' then
              let q0 := trimStart (trimmed.dropWhile (fun c => c = '>'))
              let qs := rest.takeWhile (fun l => (trimStart l).head? = some '>')
              let rest2 := rest.dropWhile (fun l => (trimStart l).head? = some '>')
              let quoteLines := q0 :: qs.map
                (fun l => trimStart ((trimStart l).dropWhile (fun c => c = '>')))
              let inner := rustTrim (joinWith (toChars "\n") quoteLines)
              (if inner.isEmpty then ([] : List Block)
               else [Block.quoteOf (parseBlocksLoop fuel (rustLines inner))]) ++
                parseBlocksLoop fuel rest2
            else if listStartLine trimmed then
              let ls := rest.takeWhile listContLine
              let rest2 := rest.dropWhile listContLine
              (match parse_listF fuel (joinWith (toChars "\n") (line :: ls)) with
               | some l => [l]
               | none => ([] : List Block)) ++ parseBlocksLoop fuel rest2
            else
              match (if trimmed.contains '|' then parse_table trimmed else none) with
              | some tbl => tbl :: parseBlocksLoop fuel rest
              | none =>
                match parse_image trimmed with
                | some (alt, src) =>
                  if trimmed = toChars "![" ++ alt.getD [] ++ toChars "](" ++
                      src ++ toChars ")" then
                    Block.image alt src :: parseBlocksLoop fuel rest
                  else
                    Block.paragraph (parseInlines trimmed) ::
                      parseBlocksLoop fuel rest
                | none =>
                  Block.paragraph (parseInlines trimmed) ::
                    parseBlocksLoop fuel rest
termination_by structural fuel => fuel

/-- `parse_list` (`src/formats/markdown.rs`). -/
def parse_listF : Nat → Str → Option Block
  | 0, _ => none
  | fuel + 1, input =>
    let lines := rustLines input
    if lines.isEmpty then none
    else
      let items := parseListLoop fuel lines 0
      if items.isEmpty then none
      else
        some (Block.listOf
          ((items.head?.map Prod.snd).getD (ListStyle.Unordered '-'))
          (items.map Prod.fst))
termination_by structural fuel => fuel

/-- The index loop of `parse_list`: advance to each item's end, or by
one line when no item starts there. -/
def parseListLoop : Nat → List Str → Nat → List (List Block × ListStyle)
  | 0, _, _ => []
  | fuel + 1, lines, i =>
    if i < lines.length then
      match parse_list_itemF fuel lines i with
      | some (item_blocks, next_index, style) =>
        (item_blocks, style) :: parseListLoop fuel lines next_index
      | none => parseListLoop fuel lines (i + 1)
    else []
termination_by structural fuel => fuel

/-- `parse_list_item` (`src/formats/markdown.rs`): the marker line's
content becomes a paragraph, following more-indented lines are parsed
recursively as the item's nested blocks. -/
def parse_list_itemF : Nat → List Str → Nat → Option (List Block × Nat × ListStyle)
  | 0, _, _ => none
  | fuel + 1, lines, start_index =>
    if start_index < lines.length then
      let line := lineAt lines start_index
      let trimmed := trimStart line
      let indent := line.length - trimmed.length
      match listItemStyle trimmed with
      | none => none
      | some (style, content) =>
        let firstBlock := Block.paragraph (parseInlines (rustTrim content))
        let r := collectNested indent (lines.drop (start_index + 1))
        let nestedBlocks :=
          if r.1.isEmpty then ([] : List Block)
          else parseBlocksLoop fuel (rustLines (joinWith (toChars "\n") r.1))
        some (firstBlock :: nestedBlocks, start_index + 1 + r.2, style)
    else none
termination_by structural fuel => fuel

end

/-- `parse_blocks` (`src/formats/markdown.rs`). -/
def parse_blocks (input : Str) : List Block :=
  parseBlocksLoop (input.length + 1) (rustLines input)

/-- Trimming yields a sublist (`trim_end` drops a suffix). -/
lemma trimEnd_sublist (s : Str) : (trimEnd s).Sublist s := by
  have h2 := (List.dropWhile_sublist (l := s.reverse) (p := rustIsWhitespace)).reverse
  simpa [trimEnd] using h2

/-- Trimming yields a sublist of the original string. -/
lemma rustTrim_sublist (s : Str) : (rustTrim s).Sublist s := by
  rw [rustTrim]
  exact (trimEnd_sublist _).trans (List.dropWhile_sublist _)

/-- The block loop on an exhausted line list returns no blocks, at any
fuel. -/
lemma parseBlocksLoop_nil : ∀ f, parseBlocksLoop f [] = [] := by
  intro f
  cases f <;> rfl

/-- Claim C7. In Markdown block parsing, a remaining line containing `|`
attempts table parsing.  `parse_table` keeps only the rows containing
`|`: fewer than two such rows is never a table; otherwise the first row
becomes the headers, and when the second row consists only of `-`, `:`,
`|` and whitespace it is consumed as an alignment row (per cell `:---`
left, `---:` right, `:---:` center, anything else the default left)
with the remaining rows as data, else all rows from the second on are
data.  Inside `parse_blocks` the attempt receives the single trimmed
line, which has fewer than 2 rows, so `parse_table` returns none there
and the line becomes a paragraph. -/
theorem markdown_table_parsing :
    (∀ input : Str,
        ((rustLines input).filter (fun l => l.contains '|')).length < 2 →
        parse_table input = none) ∧
    (∀ (input r0 r1 : Str) (rs : List Str),
        (rustLines input).filter (fun l => l.contains '|') = r0 :: r1 :: rs →
        parse_table input =
          some (Block.tableOf (tableCells r0)
            (if isAlignRow r1 then rs.map tableCells
             else (r1 :: rs).map tableCells)
            (if isAlignRow r1 then some ((splitChar '|' r1).map alignOf)
             else none)
            none)) ∧
    (∀ cell : Str,
        ((rustTrim cell).head? = some ':' → (rustTrim cell).getLast? = some ':' →
          alignOf cell = Alignment.Center) ∧
        ((rustTrim cell).head? = some ':' → (rustTrim cell).getLast? ≠ some ':' →
          alignOf cell = Alignment.Left) ∧
        ((rustTrim cell).head? ≠ some ':' → (rustTrim cell).getLast? = some ':' →
          alignOf cell = Alignment.Right) ∧
        ((rustTrim cell).head? ≠ some ':' → (rustTrim cell).getLast? ≠ some ':' →
          alignOf cell = Alignment.Left)) ∧
    (∀ line : Str,
        (∀ c ∈ line, c ≠ '\n') →
        rustTrim line ≠ [] →
        stripPrefix (toChars "```") (rustTrim line) = none →
        stripPrefix (toChars "$$") (rustTrim line) = none →
        parse_markdown_header (rustTrim line) = none →
        (rustTrim line).head? ≠ some '>' →
        listStartLine (rustTrim line) = false →
        (rustTrim line).contains '|' = true →
        (∀ alt src, parse_image (rustTrim line) = some (alt, src) →
          rustTrim line ≠ toChars "![" ++ alt.getD [] ++ toChars "](" ++
            src ++ toChars ")") →
        parse_table (rustTrim line) = none ∧
        parse_blocks line = [Block.paragraph (parseInlines (rustTrim line))]) := by
  refine ⟨?_, ?_, ?_, ?_⟩
  · intro input h
    simp only [parse_table]
    rw [if_pos h]
  · intro input r0 r1 rs h
    simp only [parse_table, h, List.length_cons, List.headD_cons,
      List.getD_cons_succ, List.getD_cons_zero, List.drop_succ_cons,
      List.drop_zero]
    rw [if_neg (by omega)]
    cases ha : isAlignRow r1 with
    | false =>
      rw [if_neg (by simp [ha])]
      simp [ha]
    | true =>
      rw [if_pos ⟨by omega, rfl⟩]
      simp [ha]
  · intro cell
    refine ⟨?_, ?_, ?_, ?_⟩ <;> intro h1 h2 <;> simp [alignOf, h1, h2]
  · intro line h0 h1 h2 h3 h4 h5 h6 h7 h8
    have hlines : rustLines (rustTrim line) = [rustTrim line] :=
      rustLines_no_nl h1 (fun c hc => h0 c ((rustTrim_sublist line).subset hc))
    have hline_ne : line ≠ [] := by
      intro hn
      exact h1 (by rw [hn]; rfl)
    have htab : parse_table (rustTrim line) = none := by
      simp only [parse_table, hlines]
      rw [if_pos (lt_of_le_of_lt (List.length_filter_le _ _) (by simp))]
    refine ⟨htab, ?_⟩
    rw [parse_blocks, rustLines_no_nl hline_ne h0]
    have hIE : (rustTrim line).isEmpty = false := by
      simpa [List.isEmpty_iff] using h1
    simp only [parseBlocksLoop, hIE, Bool.false_eq_true, if_false, h2, h3, h4,
      h7, if_true, htab, parseBlocksLoop_nil]
    rw [if_neg h5, if_neg (by simp [h6])]
    rcases himg : parse_image (rustTrim line) with _ | ⟨alt, src⟩
    · rfl
    · have hne := h8 alt src himg
      simp only [List.append_assoc] at hne
      simp [hne]

/-- Witness for claim C7: a concrete three-row table with an alignment
row, a one-row input that is not a table, alignment decoding of `:-:`,
and a single pipe line turned into a paragraph by `parse_blocks`. -/
theorem markdown_table_parsing_witness :
    parse_table (toChars "a|b\n:-|-:\nc|d") =
      some (Block.tableOf
        [[Inline.Text (toChars "a")], [Inline.Text (toChars "b")]]
        [[[Inline.Text (toChars "c")], [Inline.Text (toChars "d")]]]
        (some [Alignment.Left, Alignment.Right]) none) ∧
    parse_table (toChars "a|b") = none ∧
    alignOf (toChars ":-:") = Alignment.Center ∧
    parse_blocks (toChars "a|b") =
      [Block.paragraph [Inline.Text (toChars "a|b")]] := by
  refine ⟨?_, ?_, ?_, ?_⟩
  · have h := markdown_table_parsing.2.1 (toChars "a|b\n:-|-:\nc|d")
      (toChars "a|b") (toChars ":-|-:") [toChars "c|d"] (by rfl)
    rw [h]
    rfl
  · exact markdown_table_parsing.1 (toChars "a|b") (by decide)
  · exact (markdown_table_parsing.2.2.1 (toChars ":-:")).1 (by decide) (by decide)
  · have h := (markdown_table_parsing.2.2.2 (toChars "a|b")
      (by decide) (by decide) (by decide) (by decide) (by rfl) (by decide)
      (by decide) (by decide)
      (by
        intro alt src hc
        rw [show parse_image (rustTrim (toChars "a|b")) = none from rfl] at hc
        exact Option.noConfusion hc)).2
    rw [h]
    rfl

end Libnote
